import Mathlib

/-!
Shallow embedding of the `kmatt_invoice` persistent store (`src/database.rs`)
and proofs about its record operations, sequence allocator, backup rotation
and persistence round-trip.

Modelling conventions:
* Rust `String` values are modelled as `List Char` (`Str`), so that trimming,
  upper-casing and concatenation are ordinary list operations.
* `HashMap<String, V>` is modelled as an association list `AMap V`; insertion
  replaces any previous binding for the key, as `HashMap::insert` does.
* `f64` money values are modelled as `Rat`: the claims under study are about
  which values are combined (amount = quantity * rate, subtotal = running sum),
  not about rounding.
* `DateTime<Local>` values are opaque instants modelled as `Int`.
* The fallible conversion of a naive due date to a local instant
  (`Local.from_local_datetime(..).single()`) depends on the ambient time zone,
  so it enters the model as an `Option Int` argument.
-/

namespace KmattInvoice

/-- Characters of a Rust string, in order. -/
abbrev Str := List Char

/-- Rust `u8::is_ascii_digit` on a char: `'0'..='9'`. -/
def isAsciiDigit (c : Char) : Bool := 48 ≤ c.toNat && c.toNat ≤ 57

/-- ASCII uppercase letter `'A'..='Z'`. -/
def isAsciiUpper (c : Char) : Bool := 65 ≤ c.toNat && c.toNat ≤ 90

/-- ASCII lowercase letter `'a'..='z'`. -/
def isAsciiLower (c : Char) : Bool := 97 ≤ c.toNat && c.toNat ≤ 122

/-- Rust `char::is_ascii_alphabetic`. -/
def isAsciiAlphabetic (c : Char) : Bool := isAsciiUpper c || isAsciiLower c

/-- ASCII fragment of Rust `str::to_uppercase`, character-wise. -/
def asciiToUpper (c : Char) : Char :=
  if isAsciiLower c then Char.ofNat (c.toNat - 32) else c

/-- `str::to_uppercase` on the model string. -/
def toUpperStr (s : Str) : Str := s.map asciiToUpper

/-- Whitespace characters recognised by `str::trim` (ASCII fragment). -/
def isWsChar (c : Char) : Bool := c = ' ' || c = '\t' || c = '\n' || c = '\r'

/-- `str::trim` on the model string: strip leading and trailing whitespace. -/
def trimStr (s : Str) : Str :=
  ((s.dropWhile isWsChar).reverse.dropWhile isWsChar).reverse

/-- The decimal digit characters, as produced by Rust integer formatting. -/
def digitChar (d : Nat) : Char :=
  match d with
  | 0 => '0' | 1 => '1' | 2 => '2' | 3 => '3' | 4 => '4'
  | 5 => '5' | 6 => '6' | 7 => '7' | 8 => '8' | _ => '9'

/-- Decimal digits of `n`, computed with explicit fuel so that the kernel
can evaluate it (the fuel `n + 1` always suffices). -/
def natReprAux : Nat → Nat → List Char
  | 0, _ => []
  | fuel + 1, n =>
    if n < 10 then [digitChar n]
    else natReprAux fuel (n / 10) ++ [digitChar (n % 10)]

/-- Decimal representation of a natural number with no leading zeros,
as produced by `format!("{}", n)`. -/
def natRepr (n : Nat) : Str := natReprAux (n + 1) n

theorem natReprAux_congr : ∀ {f₁ : Nat} {f₂ n : Nat}, n < f₁ → n < f₂ →
    natReprAux f₁ n = natReprAux f₂ n := by
  intro f₁
  induction f₁ with
  | zero => intro f₂ n h₁ _; omega
  | succ g ih =>
    intro f₂ n h₁ h₂
    cases f₂ with
    | zero => omega
    | succ h =>
      rw [natReprAux, natReprAux]
      by_cases hn : n < 10
      · rw [if_pos hn, if_pos hn]
      · rw [if_neg hn, if_neg hn]
        congr 1
        have hd : n / 10 < n := Nat.div_lt_self (by omega) (by omega)
        exact ih (by omega) (by omega)

theorem natRepr_small {n : Nat} (h : n < 10) : natRepr n = [digitChar n] := by
  rw [natRepr, natReprAux, if_pos h]

theorem natRepr_big {n : Nat} (h : ¬ n < 10) :
    natRepr n = natRepr (n / 10) ++ [digitChar (n % 10)] := by
  rw [natRepr, natReprAux, if_neg h]
  congr 1
  have hd : n / 10 < n := Nat.div_lt_self (by omega) (by omega)
  exact natReprAux_congr (by omega) (by omega)

theorem natRepr_ne_nil (n : Nat) : natRepr n ≠ [] := by
  by_cases h : n < 10
  · rw [natRepr_small h]
    simp
  · rw [natRepr_big h]
    simp

theorem digitChar_isDigit (d : Nat) : isAsciiDigit (digitChar d) = true := by
  rcases d with _|_|_|_|_|_|_|_|_|_|d <;> rfl

theorem natRepr_all_digits (n : Nat) : ∀ c ∈ natRepr n, isAsciiDigit c = true := by
  induction n using Nat.strong_induction_on with
  | _ n ih =>
    by_cases h : n < 10
    · rw [natRepr_small h]
      simp [digitChar_isDigit]
    · rw [natRepr_big h]
      intro c hc
      rcases List.mem_append.mp hc with hm | hm
      · exact ih (n / 10) (Nat.div_lt_self (by omega) (by omega)) c hm
      · simp at hm
        subst hm
        exact digitChar_isDigit _

theorem digitChar_inj {d e : Nat} (hd : d < 10) (he : e < 10)
    (h : digitChar d = digitChar e) : d = e := by
  interval_cases d <;> interval_cases e <;> simp_all [digitChar]

theorem natRepr_inj : ∀ {m n : Nat}, natRepr m = natRepr n → m = n := by
  intro m
  induction m using Nat.strong_induction_on with
  | _ m ih =>
    intro n h
    by_cases hm : m < 10 <;> by_cases hn : n < 10
    · rw [natRepr_small hm, natRepr_small hn] at h
      simp at h
      exact digitChar_inj hm hn h
    · rw [natRepr_small hm, natRepr_big hn] at h
      have := natRepr_ne_nil (n / 10)
      rcases hnr : natRepr (n / 10) with _ | ⟨c, cs⟩
      · exact absurd hnr this
      · rw [hnr] at h
        have hlen := congrArg List.length h
        simp at hlen
    · rw [natRepr_big hm, natRepr_small hn] at h
      have := natRepr_ne_nil (m / 10)
      rcases hmr : natRepr (m / 10) with _ | ⟨c, cs⟩
      · exact absurd hmr this
      · rw [hmr] at h
        have hlen := congrArg List.length h
        simp at hlen
    · rw [natRepr_big hm, natRepr_big hn] at h
      have hap := List.append_inj h (by
        have h1 := congrArg List.length h
        simp at h1
        omega)
      obtain ⟨h1, h2⟩ := hap
      simp at h2
      have hdiv := ih (m / 10) (Nat.div_lt_self (by omega) (by omega)) h1
      have hmod := digitChar_inj (Nat.mod_lt _ (by omega)) (Nat.mod_lt _ (by omega)) h2
      omega

deriving instance DecidableEq for Except

/-- An ASCII-alphabetic character is never an ASCII digit. -/
theorem alpha_not_digit {c : Char} (h : isAsciiAlphabetic c = true) :
    isAsciiDigit c = false := by
  simp [isAsciiAlphabetic, isAsciiUpper, isAsciiLower] at h
  simp [isAsciiDigit]
  omega

/-- Concatenations of an all-alphabetic code and an all-digit suffix are
uniquely parseable: equal concatenations force equal parts. -/
theorem alpha_digit_append_inj :
    ∀ (a₁ : Str) {a₂ d₁ d₂ : Str},
      a₁.all isAsciiAlphabetic = true → a₂.all isAsciiAlphabetic = true →
      d₁ ≠ [] → d₂ ≠ [] →
      (∀ c ∈ d₁, isAsciiDigit c = true) → (∀ c ∈ d₂, isAsciiDigit c = true) →
      a₁ ++ d₁ = a₂ ++ d₂ → a₁ = a₂ ∧ d₁ = d₂ := by
  intro a₁
  induction a₁ with
  | nil =>
    intro a₂ d₁ d₂ _ha₁ ha₂ hd₁ _hne₂ hdig₁ _hdig₂ h
    cases a₂ with
    | nil => exact ⟨rfl, h⟩
    | cons y ys =>
      exfalso
      cases d₁ with
      | nil => exact hd₁ rfl
      | cons x xs =>
        simp at h
        obtain ⟨hxy, -⟩ := h
        subst hxy
        have h1 : isAsciiAlphabetic x = true := by
          simp [List.all_eq_true] at ha₂
          exact ha₂.1
        have h2 := hdig₁ x (by simp)
        rw [alpha_not_digit h1] at h2
        exact Bool.false_ne_true h2
  | cons x xs ih =>
    intro a₂ d₁ d₂ ha₁ ha₂ hd₁ hne₂ hdig₁ hdig₂ h
    cases a₂ with
    | nil =>
      exfalso
      cases d₂ with
      | nil => exact hne₂ rfl
      | cons y ys =>
        simp at h
        obtain ⟨hxy, -⟩ := h
        subst hxy
        have h1 : isAsciiAlphabetic x = true := by
          simp [List.all_eq_true] at ha₁
          exact ha₁.1
        have h2 := hdig₂ x (by simp)
        rw [alpha_not_digit h1] at h2
        exact Bool.false_ne_true h2
    | cons y ys =>
      simp at h
      obtain ⟨hxy, hrest⟩ := h
      subst hxy
      simp [List.all_eq_true] at ha₁ ha₂
      have := ih (by simp [List.all_eq_true]; exact fun c hc => ha₁.2 c hc)
        (by simp [List.all_eq_true]; exact fun c hc => ha₂.2 c hc)
        hd₁ hne₂ hdig₁ hdig₂ hrest
      exact ⟨by simp [this.1], this.2⟩

/-- Two invoice numbers built from alphabetic codes and decimal suffixes
coincide only when both the codes and the suffixes coincide. -/
theorem invoiceNumber_inj {c₁ c₂ : Str} {m n : Nat}
    (h₁ : c₁.all isAsciiAlphabetic = true) (h₂ : c₂.all isAsciiAlphabetic = true)
    (h : c₁ ++ natRepr m = c₂ ++ natRepr n) : c₁ = c₂ ∧ m = n := by
  have := alpha_digit_append_inj c₁ h₁ h₂ (natRepr_ne_nil m) (natRepr_ne_nil n)
    (natRepr_all_digits m) (natRepr_all_digits n) h
  exact ⟨this.1, natRepr_inj this.2⟩

/-! ## Association-list model of `HashMap<String, V>` -/

/-- Model of `HashMap<String, V>`: an association list keyed by `Str`. -/
abbrev AMap (α : Type) := List (Str × α)

/-- `HashMap::get`. -/
def lookupA {α : Type} (k : Str) : AMap α → Option α
  | [] => none
  | (k', v) :: rest => if k' = k then some v else lookupA k rest

/-- `HashMap::remove` (drops every binding of the key; maps kept key-nodup
in reachable states have at most one). -/
def eraseA {α : Type} (k : Str) : AMap α → AMap α
  | [] => []
  | p :: rest => if p.1 = k then eraseA k rest else p :: eraseA k rest

/-- `HashMap::insert`: bind `k` to `v`, replacing any previous binding. -/
def insertA {α : Type} (k : Str) (v : α) (m : AMap α) : AMap α :=
  (k, v) :: eraseA k m

/-- `HashMap::contains_key`. -/
def containsA {α : Type} (k : Str) (m : AMap α) : Bool :=
  (lookupA k m).isSome

/-- `HashMap::entry(k).or_insert(v)`. -/
def seedA {α : Type} (k : Str) (v : α) (m : AMap α) : AMap α :=
  if containsA k m then m else (k, v) :: m

/-- `HashMap::values`, as a list. -/
def valuesA {α : Type} (m : AMap α) : List α := m.map Prod.snd

/-- The keys of the map, in order. -/
def keysA {α : Type} (m : AMap α) : List Str := m.map Prod.fst

/-! ## Data model (`src/models.rs`) -/

/-- `models::Company`. -/
structure Company where
  name : Str
  abn : Str
  address : Str
  phone : Str
deriving DecidableEq

/-- `models::Customer`. -/
structure Customer where
  name : Str
  address : Str
  phone : Str
  contact_person : Str
  contact_phone : Str
  email : Str
  code : Str
deriving DecidableEq

/-- `models::InvoiceItem`; `rate`/`amount` are `f64` in the source,
modelled as `Rat`. -/
structure InvoiceItem where
  description : Str
  quantity : Nat
  rate : Rat
  amount : Rat
deriving DecidableEq

/-- `models::Invoice`; the two `DateTime<Local>` fields are opaque instants. -/
structure Invoice where
  invoice_number : Str
  date : Int
  due_date : Int
  customer : Customer
  items : List InvoiceItem
  subtotal : Rat
  total : Rat
  notes : Str
  paid : Bool
deriving DecidableEq

/-- `database::DatabaseError`; the `io::Error` / `serde_json::Error` payloads
are reduced to their messages. -/
inductive DatabaseError where
  | IoError : Str → DatabaseError
  | Serialization : Str → DatabaseError
  | CustomerExists : Str → DatabaseError
  | CustomerNotFound : Str → DatabaseError
  | InvoiceNotFound : Str → DatabaseError
  | InvalidInput : Str → DatabaseError
  | PdfGeneration : Str → DatabaseError
deriving DecidableEq

/-- `database::Database`: the in-memory aggregate. -/
structure Database where
  company : Company
  customers : AMap Customer
  invoices : AMap Invoice
  last_invoice_nums : AMap Nat
deriving DecidableEq

/-- `Database::new()`. -/
def Database.new : Database :=
  { company :=
      { name := "JMATTS CLEANING Canberra".toList
        abn := "78734213681".toList
        address := "40 Wyndham Avenue Denman Prospect, ACT, 2611".toList
        phone := "0403-491446".toList }
    customers := []
    invoices := []
    last_invoice_nums := [] }

/-! ## Record operations (`src/database.rs`)

Each Rust method takes `&mut self` and returns `Result<T, DatabaseError>`;
in the model the post-call state is returned alongside the result, so that
mutations performed before an early `return Err(..)` stay observable.
`save()` never changes the in-memory aggregate, so its success is implicit
at this level. -/

/-- The code-format validation shared by add/edit:
`code.len() >= 2 && code.len() <= 3 && code.chars().all(|c| c.is_ascii_alphabetic())`. -/
def validCodeFormat (code : Str) : Bool :=
  2 ≤ code.length && code.length ≤ 3 && code.all isAsciiAlphabetic

/-- `Database::add_customer_gui`. -/
def addCustomerGui (db : Database) (customer : Customer) :
    Database × Except DatabaseError Unit :=
  if trimStr customer.name = [] then
    (db, .error (.InvalidInput "Customer name cannot be empty.".toList))
  else if containsA (trimStr customer.name) db.customers then
    (db, .error (.CustomerExists (trimStr customer.name)))
  else
    let code := toUpperStr (trimStr customer.code)
    if ¬ validCodeFormat code = true then
      (db, .error (.InvalidInput "Customer code must be 2-3 alphabetic characters.".toList))
    else if (valuesA db.customers).any (fun c => decide (c.code = code)) then
      (db, .error (.InvalidInput "Customer code is already in use.".toList))
    else
      let validated : Customer := { customer with name := trimStr customer.name, code := code }
      ({ db with
          customers := insertA validated.name validated db.customers
          last_invoice_nums := seedA validated.code 75 db.last_invoice_nums },
        .ok ())

/-- `Database::edit_customer_gui`. -/
def editCustomerGui (db : Database) (original_name : Str) (updated_customer : Customer) :
    Database × Except DatabaseError Unit :=
  if trimStr updated_customer.name = [] then
    (db, .error (.InvalidInput "Customer name cannot be empty.".toList))
  else
    let new_name := trimStr updated_customer.name
    let new_code := toUpperStr (trimStr updated_customer.code)
    if ¬ validCodeFormat new_code = true then
      (db, .error (.InvalidInput "Customer code must be 2-3 alphabetic characters.".toList))
    else
      match lookupA original_name db.customers with
      | none => (db, .error (.CustomerNotFound original_name))
      | some original_customer =>
        if original_name ≠ new_name ∧ containsA new_name db.customers = true then
          (db, .error (.CustomerExists new_name))
        else if original_customer.code ≠ new_code ∧
            (valuesA db.customers).any
              (fun c => decide (c.name ≠ original_name) && decide (c.code = new_code)) = true then
          (db, .error (.InvalidInput "Customer code is already in use by another customer.".toList))
        else
          let final_customer : Customer :=
            { updated_customer with name := new_name, code := new_code }
          let customers1 :=
            insertA final_customer.name final_customer (eraseA original_name db.customers)
          let nums1 :=
            if original_customer.code ≠ final_customer.code then
              insertA final_customer.code
                ((lookupA original_customer.code db.last_invoice_nums).getD 75)
                (eraseA original_customer.code db.last_invoice_nums)
            else db.last_invoice_nums
          ({ db with customers := customers1, last_invoice_nums := nums1 }, .ok ())

/-- `Database::delete_customer_gui`. -/
def deleteCustomerGui (db : Database) (customer_code : Str) :
    Database × Except DatabaseError Unit :=
  match (valuesA db.customers).find? (fun c => decide (c.code = customer_code)) with
  | none => (db, .error (.CustomerNotFound customer_code))
  | some c =>
    let customers1 := eraseA c.name db.customers
    let nums1 := eraseA customer_code db.last_invoice_nums
    let invoices_to_remove :=
      (db.invoices.filter (fun p => decide (p.2.customer.code = customer_code))).map Prod.fst
    let invoices1 := invoices_to_remove.foldl (fun m k => eraseA k m) db.invoices
    ({ db with customers := customers1, invoices := invoices1, last_invoice_nums := nums1 },
      .ok ())

/-- `Database::generate_next_invoice_number`:
`entry(code).or_insert(75)`, then `*next_num += 1`, then format. -/
def generateNextInvoiceNumber (db : Database) (customer_code : Str) : Database × Str :=
  let n := (lookupA customer_code db.last_invoice_nums).getD 75 + 1
  ({ db with last_invoice_nums := insertA customer_code n db.last_invoice_nums },
    customer_code ++ natRepr n)

/-- Recompute one line item: `amount = item.quantity as f64 * item.rate`. -/
def recomputeItem (it : InvoiceItem) : InvoiceItem :=
  { it with amount := (it.quantity : Rat) * it.rate }

/-- `Database::create_invoice_gui`. `now` is the `Local::now()` instant and
`dueConv` the (time-zone dependent) result of
`due_date_naive.and_hms_opt(0,0,0)` + `Local.from_local_datetime(..).single()`. -/
def createInvoiceGui (db : Database) (customer_code : Str) (items : List InvoiceItem)
    (notes : Str) (now : Int) (dueConv : Option Int) :
    Database × Except DatabaseError Invoice :=
  match (valuesA db.customers).find? (fun c => decide (c.code = customer_code)) with
  | none => (db, .error (.CustomerNotFound customer_code))
  | some customer =>
    if items = [] then
      (db, .error (.InvalidInput "Invoice must have at least one item.".toList))
    else
      let p := generateNextInvoiceNumber db customer_code
      match dueConv with
      | none => (p.1, .error (.InvalidInput "Invalid due date conversion.".toList))
      | some due_date =>
        let calculated_items := items.map recomputeItem
        let subtotal := calculated_items.foldl (fun acc it => acc + it.amount) 0
        let total := subtotal
        let invoice : Invoice :=
          { invoice_number := p.2
            date := now
            due_date := due_date
            customer := customer
            items := calculated_items
            subtotal := subtotal
            total := total
            notes := notes
            paid := false }
        ({ p.1 with invoices := insertA p.2 invoice p.1.invoices }, .ok invoice)

/-- `Database::edit_invoice_gui`. -/
def editInvoiceGui (db : Database) (invoice_number : Str) (items : List InvoiceItem)
    (notes : Str) (dueConv : Option Int) (paid : Bool) :
    Database × Except DatabaseError Unit :=
  match lookupA invoice_number db.invoices with
  | none => (db, .error (.InvoiceNotFound invoice_number))
  | some invoice =>
    if items = [] then
      (db, .error (.InvalidInput "Invoice must have at least one item.".toList))
    else
      match dueConv with
      | none => (db, .error (.InvalidInput "Invalid due date conversion.".toList))
      | some due_date =>
        let calculated_items := items.map recomputeItem
        let subtotal := calculated_items.foldl (fun acc it => acc + it.amount) 0
        let updated : Invoice :=
          { invoice with
              items := calculated_items
              notes := notes
              due_date := due_date
              paid := paid
              subtotal := subtotal
              total := subtotal }
        ({ db with invoices := insertA invoice_number updated db.invoices }, .ok ())

/-- `Database::delete_invoice_gui`. -/
def deleteInvoiceGui (db : Database) (invoice_number : Str) :
    Database × Except DatabaseError Unit :=
  if containsA invoice_number db.invoices then
    ({ db with invoices := eraseA invoice_number db.invoices }, .ok ())
  else
    (db, .error (.InvoiceNotFound invoice_number))

/-- `Database::mark_invoice_paid_gui`. -/
def markInvoicePaidGui (db : Database) (invoice_number : Str) :
    Database × Except DatabaseError Unit :=
  match lookupA invoice_number db.invoices with
  | none => (db, .error (.InvoiceNotFound invoice_number))
  | some invoice =>
    ({ db with invoices := insertA invoice_number { invoice with paid := true } db.invoices },
      .ok ())

/-! ## Operation sequences (for reachability claims) -/

/-- One GUI record operation together with its environment inputs. -/
inductive Op where
  | addCustomer (c : Customer)
  | editCustomer (original_name : Str) (c : Customer)
  | deleteCustomer (code : Str)
  | createInvoice (code : Str) (items : List InvoiceItem) (notes : Str)
      (now : Int) (dueConv : Option Int)
  | editInvoice (num : Str) (items : List InvoiceItem) (notes : Str)
      (dueConv : Option Int) (paid : Bool)
  | deleteInvoice (num : Str)
  | markPaid (num : Str)
deriving DecidableEq

/-- State reached after one record operation (result value dropped). -/
def applyOp (db : Database) : Op → Database
  | .addCustomer c => (addCustomerGui db c).1
  | .editCustomer orig c => (editCustomerGui db orig c).1
  | .deleteCustomer code => (deleteCustomerGui db code).1
  | .createInvoice code items notes now dueConv =>
      (createInvoiceGui db code items notes now dueConv).1
  | .editInvoice num items notes dueConv paid =>
      (editInvoiceGui db num items notes dueConv paid).1
  | .deleteInvoice num => (deleteInvoiceGui db num).1
  | .markPaid num => (markInvoicePaidGui db num).1

/-- State reached after a sequence of record operations. -/
def runOps (db : Database) (ops : List Op) : Database := ops.foldl applyOp db

/-! ## Association-list lemmas -/

theorem lookupA_insertA_self {α : Type} (k : Str) (v : α) (m : AMap α) :
    lookupA k (insertA k v m) = some v := by
  rw [insertA, lookupA, if_pos rfl]

theorem lookupA_eraseA {α : Type} (k k' : Str) (m : AMap α) :
    lookupA k' (eraseA k m) = if k = k' then none else lookupA k' m := by
  induction m with
  | nil => simp [eraseA, lookupA]
  | cons p rest ih =>
    rcases p with ⟨k₁, v₁⟩
    rw [eraseA]
    by_cases h₁ : k₁ = k
    · subst h₁
      rw [if_pos rfl, ih]
      by_cases h₂ : k₁ = k'
      · rw [if_pos h₂, if_pos h₂]
      · rw [if_neg h₂, if_neg h₂, lookupA, if_neg h₂]
    · rw [if_neg h₁, lookupA]
      by_cases h₂ : k₁ = k'
      · rw [if_pos h₂, if_neg (fun he => h₁ (h₂.trans he.symm)), lookupA, if_pos h₂]
      · rw [if_neg h₂, ih]
        by_cases h₃ : k = k'
        · rw [if_pos h₃, if_pos h₃]
        · rw [if_neg h₃, if_neg h₃, lookupA, if_neg h₂]

theorem lookupA_eraseA_self {α : Type} (k : Str) (m : AMap α) :
    lookupA k (eraseA k m) = none := by
  rw [lookupA_eraseA, if_pos rfl]

theorem lookupA_eraseA_ne {α : Type} {k k' : Str} (h : k ≠ k') (m : AMap α) :
    lookupA k' (eraseA k m) = lookupA k' m := by
  rw [lookupA_eraseA, if_neg h]

theorem lookupA_insertA_ne {α : Type} {k k' : Str} (h : k ≠ k') (v : α) (m : AMap α) :
    lookupA k' (insertA k v m) = lookupA k' m := by
  rw [insertA, lookupA, if_neg h, lookupA_eraseA_ne h]

theorem lookupA_insertA {α : Type} (k k' : Str) (v : α) (m : AMap α) :
    lookupA k' (insertA k v m) = if k = k' then some v else lookupA k' m := by
  by_cases h : k = k'
  · subst h
    rw [lookupA_insertA_self, if_pos rfl]
  · rw [lookupA_insertA_ne h, if_neg h]

theorem lookupA_seedA_absent {α : Type} {k : Str} (k' : Str) {v : α} {m : AMap α}
    (hm : lookupA k m = none) :
    lookupA k' (seedA k v m) = if k = k' then some v else lookupA k' m := by
  unfold seedA containsA
  rw [hm]
  show lookupA k' ((k, v) :: m) = _
  rw [lookupA]

theorem lookupA_seedA_present {α : Type} {k : Str} (k' : Str) {v w : α} {m : AMap α}
    (hm : lookupA k m = some w) :
    lookupA k' (seedA k v m) = lookupA k' m := by
  unfold seedA containsA
  rw [hm]
  rfl

theorem mem_eraseA {α : Type} {p : Str × α} {k : Str} : ∀ {m : AMap α},
    p ∈ eraseA k m → p ∈ m ∧ p.1 ≠ k := by
  intro m
  induction m with
  | nil => intro h; simp [eraseA] at h
  | cons q rest ih =>
    intro h
    rw [eraseA] at h
    split at h
    · rename_i hq
      exact ⟨List.mem_cons_of_mem _ (ih h).1, (ih h).2⟩
    · rename_i hq
      rcases List.mem_cons.mp h with h | h
      · subst h
        exact ⟨List.mem_cons_self _ _, hq⟩
      · exact ⟨List.mem_cons_of_mem _ (ih h).1, (ih h).2⟩

theorem mem_insertA {α : Type} {p : Str × α} {k : Str} {v : α} {m : AMap α}
    (h : p ∈ insertA k v m) : p = (k, v) ∨ p ∈ m := by
  rw [insertA] at h
  rcases List.mem_cons.mp h with h | h
  · exact Or.inl h
  · exact Or.inr (mem_eraseA h).1

theorem mem_seedA {α : Type} {p : Str × α} {k : Str} {v : α} {m : AMap α}
    (h : p ∈ seedA k v m) : p = (k, v) ∨ p ∈ m := by
  rw [seedA] at h
  split at h
  · exact Or.inr h
  · rcases List.mem_cons.mp h with h | h
    · exact Or.inl h
    · exact Or.inr h

theorem lookupA_mem {α : Type} {k : Str} {v : α} : ∀ {m : AMap α},
    lookupA k m = some v → (k, v) ∈ m := by
  intro m
  induction m with
  | nil => intro h; simp [lookupA] at h
  | cons p rest ih =>
    intro h
    rw [lookupA] at h
    split at h
    · rename_i hp
      rcases p with ⟨k₁, v₁⟩
      simp at h hp
      subst hp
      rw [← h]
      exact List.mem_cons_self _ _
    · exact List.mem_cons_of_mem _ (ih h)

/-- Current value of the sequence counter for a code, with the seeding
default (`or_insert(75)`) made explicit. -/
def counterVal (db : Database) (code : Str) : Nat :=
  (lookupA code db.last_invoice_nums).getD 75

/-! ## C1: sequential invoice number allocation -/

/-- Inputs of one successful `create_invoice_gui` call: a non-empty item
list, notes, the issue instant, and a successfully converted due instant. -/
structure CreateArgs where
  items : List InvoiceItem
  notes : Str
  now : Int
  due : Int
deriving DecidableEq

/-- Run a sequence of `create_invoice_gui` calls for one customer code,
collecting the invoice numbers of the successfully created invoices. -/
def createMany (db : Database) (code : Str) : List CreateArgs → Database × List Str
  | [] => (db, [])
  | a :: rest =>
    let r := createInvoiceGui db code a.items a.notes a.now (some a.due)
    let q := createMany r.1 code rest
    (q.1,
      (match r.2 with
        | .ok inv => [inv.invoice_number]
        | .error _ => []) ++ q.2)

/-- The invoice value built by a successful `create_invoice_gui` call. -/
def mkCreatedInvoice (db : Database) (code : Str) (cu : Customer)
    (items : List InvoiceItem) (notes : Str) (now due : Int) : Invoice :=
  { invoice_number := code ++ natRepr (counterVal db code + 1)
    date := now
    due_date := due
    customer := cu
    items := items.map recomputeItem
    subtotal := (items.map recomputeItem).foldl (fun acc it => acc + it.amount) 0
    total := (items.map recomputeItem).foldl (fun acc it => acc + it.amount) 0
    notes := notes
    paid := false }

theorem createInvoiceGui_ok {db : Database} {code : Str} {cu : Customer}
    {items : List InvoiceItem} {notes : Str} {now due : Int}
    (hfind : (valuesA db.customers).find? (fun c => decide (c.code = code)) = some cu)
    (hitems : items ≠ []) :
    createInvoiceGui db code items notes now (some due) =
      ({ db with
          invoices := insertA (code ++ natRepr (counterVal db code + 1))
            (mkCreatedInvoice db code cu items notes now due) db.invoices
          last_invoice_nums := insertA code (counterVal db code + 1) db.last_invoice_nums },
        .ok (mkCreatedInvoice db code cu items notes now due)) := by
  rw [createInvoiceGui, hfind]
  simp [hitems, generateNextInvoiceNumber, counterVal, mkCreatedInvoice]

theorem createMany_numbers (code : Str) (cu : Customer) :
    ∀ (args : List CreateArgs) (db : Database),
      (valuesA db.customers).find? (fun c => decide (c.code = code)) = some cu →
      (∀ a ∈ args, a.items ≠ []) →
      (createMany db code args).2 =
        (List.range args.length).map (fun i => code ++ natRepr (counterVal db code + 1 + i)) := by
  intro args
  induction args with
  | nil => intro db _ _; rfl
  | cons a rest ih =>
    intro db hfind hargs
    have ha : a.items ≠ [] := hargs a (by simp)
    rw [createMany]
    simp only [createInvoiceGui_ok hfind ha]
    rw [ih { db with
          invoices := insertA (code ++ natRepr (counterVal db code + 1))
            (mkCreatedInvoice db code cu a.items a.notes a.now a.due) db.invoices
          last_invoice_nums := insertA code (counterVal db code + 1) db.last_invoice_nums }
        hfind (fun x hx => hargs x (by simp [hx]))]
    have hc : counterVal
        { db with
          invoices := insertA (code ++ natRepr (counterVal db code + 1))
            (mkCreatedInvoice db code cu a.items a.notes a.now a.due) db.invoices
          last_invoice_nums := insertA code (counterVal db code + 1) db.last_invoice_nums }
        code = counterVal db code + 1 := by
      simp [counterVal, lookupA_insertA_self]
    rw [hc]
    rw [List.length_cons, List.range_succ_eq_map]
    simp [List.map_map, Function.comp, mkCreatedInvoice]
    intro i _
    congr 1
    omega

/-- C1: starting from a state whose sequence counter for `code` has just been
seeded at 75 (as `add_customer_gui` does for a fresh customer), running N
successful `create_invoice_gui` calls for that code yields exactly the invoice
numbers `<code>76 .. <code>(75+N)`, in order, with no gaps and no repeats; the
suffix is the plain decimal representation with no leading zeros. -/
theorem C1_sequential_numbers_from_seed (db : Database) (code : Str) (cu : Customer)
    (args : List CreateArgs)
    (hseed : lookupA code db.last_invoice_nums = some 75)
    (hcust : (valuesA db.customers).find? (fun c => decide (c.code = code)) = some cu)
    (hargs : ∀ a ∈ args, a.items ≠ []) :
    (createMany db code args).2 =
      (List.range args.length).map (fun i => code ++ natRepr (76 + i)) ∧
    ((createMany db code args).2).Nodup := by
  have h1 := createMany_numbers code cu args db hcust hargs
  have hcv : counterVal db code = 75 := by simp [counterVal, hseed]
  rw [hcv] at h1
  have h2 : (createMany db code args).2 =
      (List.range args.length).map (fun i => code ++ natRepr (76 + i)) := by
    rw [h1]
  refine ⟨h2, ?_⟩
  rw [h2]
  apply List.Nodup.map
  · intro i j hij
    have := natRepr_inj (List.append_cancel_left hij)
    omega
  · exact List.nodup_range _

/-! ## Concrete fixtures used by witnesses and counterexamples -/

/-- A concrete customer (the spec's §8 scenario: `Acme`, code `AC`). -/
def wCustomerAC : Customer :=
  { name := "Acme".toList
    address := "1 Road".toList
    phone := "555".toList
    contact_person := "Ann".toList
    contact_phone := "556".toList
    email := "a@x".toList
    code := "AC".toList }

/-- A concrete line item with a bogus caller-supplied amount. -/
def wItem1 : InvoiceItem :=
  { description := "clean".toList, quantity := 3, rate := 10, amount := 999 }

/-- A second concrete line item. -/
def wItem2 : InvoiceItem :=
  { description := "extra".toList, quantity := 1, rate := 5, amount := 0 }

/-- Fresh store with customer `Acme`/`AC` added (counter seeded at 75). -/
def wDbAC : Database := (addCustomerGui Database.new wCustomerAC).1

/-- Two successful create calls' inputs. -/
def wArgs : List CreateArgs :=
  [{ items := [wItem1, wItem2], notes := [], now := 0, due := 1 },
   { items := [wItem1], notes := [], now := 2, due := 3 }]

theorem C1_sequential_numbers_from_seed_witness :
    (createMany wDbAC "AC".toList wArgs).2 =
      (List.range wArgs.length).map (fun i => "AC".toList ++ natRepr (76 + i)) ∧
    ((createMany wDbAC "AC".toList wArgs).2).Nodup :=
  C1_sequential_numbers_from_seed wDbAC "AC".toList wCustomerAC wArgs
    (by decide) (by decide) (by decide)

/-! ## C2: validation errors and in-memory state -/

theorem addCustomerGui_error_state (db : Database) (c : Customer) :
    ∀ {e : DatabaseError}, (addCustomerGui db c).2 = .error e → (addCustomerGui db c).1 = db := by
  intro e h
  simp only [addCustomerGui] at h ⊢
  split_ifs at h ⊢ <;> simp_all

theorem editCustomerGui_error_state (db : Database) (orig : Str) (c : Customer) :
    ∀ {e : DatabaseError},
      (editCustomerGui db orig c).2 = .error e → (editCustomerGui db orig c).1 = db := by
  intro e h
  cases hcu : lookupA orig db.customers with
  | none =>
    simp only [editCustomerGui, hcu] at h ⊢
    split_ifs at h ⊢ <;> rfl
  | some oc =>
    simp only [editCustomerGui, hcu] at h ⊢
    split_ifs at h ⊢ <;> simp_all

theorem deleteCustomerGui_error_state (db : Database) (code : Str) :
    ∀ {e : DatabaseError},
      (deleteCustomerGui db code).2 = .error e → (deleteCustomerGui db code).1 = db := by
  intro e h
  cases hcu : (valuesA db.customers).find? (fun c => decide (c.code = code)) with
  | none => simp only [deleteCustomerGui, hcu] at h ⊢
  | some c =>
    simp only [deleteCustomerGui, hcu] at h ⊢
    exact Except.noConfusion h

theorem editInvoiceGui_error_state (db : Database) (num : Str) (items : List InvoiceItem)
    (notes : Str) (conv : Option Int) (paid : Bool) :
    ∀ {e : DatabaseError},
      (editInvoiceGui db num items notes conv paid).2 = .error e →
      (editInvoiceGui db num items notes conv paid).1 = db := by
  intro e h
  cases hinv : lookupA num db.invoices with
  | none => simp only [editInvoiceGui, hinv] at h ⊢
  | some inv =>
    cases conv with
    | none =>
      simp only [editInvoiceGui, hinv] at h ⊢
      split_ifs at h ⊢ <;> rfl
    | some d =>
      simp only [editInvoiceGui, hinv] at h ⊢
      split_ifs at h ⊢ <;> simp_all

theorem deleteInvoiceGui_error_state (db : Database) (num : Str) :
    ∀ {e : DatabaseError},
      (deleteInvoiceGui db num).2 = .error e → (deleteInvoiceGui db num).1 = db := by
  intro e h
  simp only [deleteInvoiceGui] at h ⊢
  split_ifs at h ⊢ <;> simp_all

theorem markInvoicePaidGui_error_state (db : Database) (num : Str) :
    ∀ {e : DatabaseError},
      (markInvoicePaidGui db num).2 = .error e → (markInvoicePaidGui db num).1 = db := by
  intro e h
  cases hinv : lookupA num db.invoices with
  | none => simp only [markInvoicePaidGui, hinv] at h ⊢
  | some inv =>
    simp only [markInvoicePaidGui, hinv] at h ⊢
    exact Except.noConfusion h

theorem createInvoiceGui_error_state (db : Database) (code : Str) (items : List InvoiceItem)
    (notes : Str) (now : Int) (conv : Option Int) :
    ∀ {e : DatabaseError},
      (createInvoiceGui db code items notes now conv).2 = .error e →
      (createInvoiceGui db code items notes now conv).1.customers = db.customers ∧
      (createInvoiceGui db code items notes now conv).1.invoices = db.invoices ∧
      (createInvoiceGui db code items notes now conv).1.company = db.company := by
  intro e h
  cases hcu : (valuesA db.customers).find? (fun c => decide (c.code = code)) with
  | none =>
    refine ⟨?_, ?_, ?_⟩ <;> simp [createInvoiceGui, hcu]
  | some cu =>
    cases conv with
    | none =>
      refine ⟨?_, ?_, ?_⟩ <;>
        simp [createInvoiceGui, hcu, generateNextInvoiceNumber] <;>
        split_ifs <;> rfl
    | some d =>
      by_cases hi : items = []
      · refine ⟨?_, ?_, ?_⟩ <;> simp [createInvoiceGui, hcu, hi]
      · exfalso
        rw [createInvoiceGui_ok hcu hi] at h
        exact Except.noConfusion h

theorem createInvoiceGui_dueDate_failure (db : Database) (code : Str)
    (items : List InvoiceItem) (notes : Str) (now : Int) (cu : Customer)
    (hfind : (valuesA db.customers).find? (fun c => decide (c.code = code)) = some cu)
    (hitems : items ≠ []) :
    (createInvoiceGui db code items notes now none).2 =
      .error (.InvalidInput "Invalid due date conversion.".toList) ∧
    (createInvoiceGui db code items notes now none).1.last_invoice_nums =
      insertA code (counterVal db code + 1) db.last_invoice_nums := by
  rw [createInvoiceGui, hfind]
  simp [hitems, generateNextInvoiceNumber, counterVal]

/-- C2 counterexample: on the concrete store `wDbAC` (customer `AC`, counter
seeded at 75), `create_invoice_gui` with a non-empty item list whose due-date
conversion fails returns `InvalidInput` yet leaves the sequence counter for
`AC` at 76: the claim that a validation error leaves the whole aggregate,
and in particular the sequence counters, untouched is false on the code. -/
theorem C2_counterexample :
    (createInvoiceGui wDbAC "AC".toList [wItem1] [] 0 none).2 =
      .error (.InvalidInput "Invalid due date conversion.".toList) ∧
    lookupA "AC".toList wDbAC.last_invoice_nums = some 75 ∧
    lookupA "AC".toList
      (createInvoiceGui wDbAC "AC".toList [wItem1] [] 0 none).1.last_invoice_nums =
      some 76 := by
  refine ⟨by decide, by decide, by decide⟩

/-- C2 (amended): every record operation that returns a validation error
leaves customers, invoices and the company profile exactly as before; all
operations except Create Invoice also leave the sequence counters unchanged
on error; but Create Invoice failing with `InvalidInput` on the due date has
already incremented the sequence counter for the requested code. -/
theorem C2_amended_error_atomicity (db : Database) :
    (∀ c e, (addCustomerGui db c).2 = .error e → (addCustomerGui db c).1 = db) ∧
    (∀ orig c e, (editCustomerGui db orig c).2 = .error e →
      (editCustomerGui db orig c).1 = db) ∧
    (∀ code e, (deleteCustomerGui db code).2 = .error e →
      (deleteCustomerGui db code).1 = db) ∧
    (∀ num items notes conv paid e,
      (editInvoiceGui db num items notes conv paid).2 = .error e →
      (editInvoiceGui db num items notes conv paid).1 = db) ∧
    (∀ num e, (deleteInvoiceGui db num).2 = .error e → (deleteInvoiceGui db num).1 = db) ∧
    (∀ num e, (markInvoicePaidGui db num).2 = .error e → (markInvoicePaidGui db num).1 = db) ∧
    (∀ code items notes now conv e,
      (createInvoiceGui db code items notes now conv).2 = .error e →
      (createInvoiceGui db code items notes now conv).1.customers = db.customers ∧
      (createInvoiceGui db code items notes now conv).1.invoices = db.invoices ∧
      (createInvoiceGui db code items notes now conv).1.company = db.company) ∧
    (∀ code items notes now cu,
      (valuesA db.customers).find? (fun c => decide (c.code = code)) = some cu →
      items ≠ [] →
      (createInvoiceGui db code items notes now none).2 =
        .error (.InvalidInput "Invalid due date conversion.".toList) ∧
      (createInvoiceGui db code items notes now none).1.last_invoice_nums =
        insertA code (counterVal db code + 1) db.last_invoice_nums) :=
  ⟨fun c e h => addCustomerGui_error_state db c h,
   fun orig c e h => editCustomerGui_error_state db orig c h,
   fun code e h => deleteCustomerGui_error_state db code h,
   fun num items notes conv paid e h =>
     editInvoiceGui_error_state db num items notes conv paid h,
   fun num e h => deleteInvoiceGui_error_state db num h,
   fun num e h => markInvoicePaidGui_error_state db num h,
   fun code items notes now conv e h =>
     createInvoiceGui_error_state db code items notes now conv h,
   fun code items notes now cu hfind hitems =>
     createInvoiceGui_dueDate_failure db code items notes now cu hfind hitems⟩

theorem C2_amended_error_atomicity_witness :
    (addCustomerGui wDbAC wCustomerAC).1 = wDbAC ∧
    (createInvoiceGui wDbAC "AC".toList [wItem1] [] 0 none).1.last_invoice_nums =
      insertA "AC".toList (counterVal wDbAC "AC".toList + 1) wDbAC.last_invoice_nums := by
  refine ⟨(C2_amended_error_atomicity wDbAC).1 wCustomerAC
      (.CustomerExists "Acme".toList) (by decide), ?_⟩
  exact ((C2_amended_error_atomicity wDbAC).2.2.2.2.2.2.2 "AC".toList [wItem1] [] 0
    wCustomerAC (by decide) (by decide)).2

/-! ## Character and trimming lemmas -/

theorem toNat_asciiToUpper (c : Char) :
    (asciiToUpper c).toNat = if isAsciiLower c then c.toNat - 32 else c.toNat := by
  unfold asciiToUpper
  split_ifs with h
  · have hc : 97 ≤ c.toNat ∧ c.toNat ≤ 122 := by
      simp [isAsciiLower] at h
      exact h
    unfold Char.ofNat
    rw [dif_pos (by unfold Nat.isValidChar; omega)]
    rfl
  · rfl

theorem upper_of_alpha_toUpper {c : Char}
    (h : isAsciiAlphabetic (asciiToUpper c) = true) :
    isAsciiUpper (asciiToUpper c) = true := by
  have ht := toNat_asciiToUpper c
  by_cases hl : isAsciiLower c = true
  · rw [if_pos hl] at ht
    simp [isAsciiLower] at hl
    simp [isAsciiUpper, ht]
    omega
  · rw [if_neg hl] at ht
    simp [isAsciiLower] at hl
    simp [isAsciiAlphabetic, isAsciiUpper, isAsciiLower, ht] at h ⊢
    omega

theorem toUpperStr_all_upper {s : Str}
    (h : (toUpperStr s).all isAsciiAlphabetic = true) :
    (toUpperStr s).all isAsciiUpper = true := by
  rw [List.all_eq_true] at h ⊢
  intro c hc
  rcases List.mem_map.mp hc with ⟨c0, hc0, rfl⟩
  exact upper_of_alpha_toUpper (h _ hc)

theorem dropWhile_cons_false {p : Char → Bool} :
    ∀ {l cs : List Char} {c : Char}, l.dropWhile p = c :: cs → p c = false := by
  intro l
  induction l with
  | nil => intro cs c h; simp [List.dropWhile] at h
  | cons a l ih =>
    intro cs c h
    rw [List.dropWhile_cons] at h
    split_ifs at h with ha
    · exact ih h
    · injection h with h1 _
      subst h1
      simpa using ha

theorem mem_dropWhile_of_not {p : Char → Bool} {c : Char} (hc : p c = false) :
    ∀ {l : List Char}, c ∈ l → c ∈ l.dropWhile p := by
  intro l
  induction l with
  | nil => intro h; simp at h
  | cons a l ih =>
    intro h
    rw [List.dropWhile_cons]
    split_ifs with ha
    · rcases List.mem_cons.mp h with he | h
      · subst he
        rw [hc] at ha
        exact absurd ha (by simp)
      · exact ih h
    · exact h

theorem mem_trimStr {c : Char} (hc : isWsChar c = false) {s : Str} (h : c ∈ s) :
    c ∈ trimStr s := by
  unfold trimStr
  rw [List.mem_reverse]
  exact mem_dropWhile_of_not hc (List.mem_reverse.mpr (mem_dropWhile_of_not hc h))

/-- A trimmed non-empty name stays non-empty when trimmed again. -/
theorem trimStr_trim_ne_nil {s : Str} (h : trimStr s ≠ []) :
    trimStr (trimStr s) ≠ [] := by
  rcases hu : s.dropWhile isWsChar with _ | ⟨c, cs⟩
  · exfalso
    apply h
    unfold trimStr
    rw [hu]
    rfl
  · have hcws : isWsChar c = false := dropWhile_cons_false hu
    have hcs : c ∈ s := (List.dropWhile_sublist (p := isWsChar) (l := s)).subset
      (by rw [hu]; exact List.mem_cons_self _ _)
    have h1 : c ∈ trimStr s := mem_trimStr hcws hcs
    have h2 : c ∈ trimStr (trimStr s) := mem_trimStr hcws h1
    intro hnil
    rw [hnil] at h2
    simp at h2

/-! ## C6: item amounts, subtotal and total -/

theorem foldl_amount_eq_sum (l : List InvoiceItem) :
    l.foldl (fun acc it => acc + it.amount) 0 = (l.map (fun it => it.amount)).sum := by
  rw [List.sum_eq_foldl, List.foldl_map]

theorem amount_recomputed {it : InvoiceItem} {l : List InvoiceItem}
    (h : it ∈ l.map recomputeItem) : it.amount = (it.quantity : Rat) * it.rate := by
  rcases List.mem_map.mp h with ⟨it0, _, rfl⟩
  simp [recomputeItem]

/-- The invoice value written back by a successful `edit_invoice_gui` call. -/
def mkEditedInvoice (inv0 : Invoice) (items : List InvoiceItem) (notes : Str)
    (due : Int) (paid : Bool) : Invoice :=
  { inv0 with
      items := items.map recomputeItem
      notes := notes
      due_date := due
      paid := paid
      subtotal := (items.map recomputeItem).foldl (fun acc it => acc + it.amount) 0
      total := (items.map recomputeItem).foldl (fun acc it => acc + it.amount) 0 }

theorem editInvoiceGui_ok {db : Database} {num : Str} {items : List InvoiceItem}
    {notes : Str} {due : Int} {paid : Bool} {inv0 : Invoice}
    (hinv : lookupA num db.invoices = some inv0) (hitems : items ≠ []) :
    editInvoiceGui db num items notes (some due) paid =
      ({ db with invoices :=
          insertA num (mkEditedInvoice inv0 items notes due paid) db.invoices },
        .ok ()) := by
  simp [editInvoiceGui, hinv, hitems, mkEditedInvoice]

/-- C6: invoices produced by Create Invoice and written back by Edit Invoice
store, for each submitted item, `amount = quantity * rate` (the submitted
amount is ignored by the recomputation), a subtotal equal to the sum of the
stored item amounts, and a total equal to the subtotal. -/
theorem C6_amounts_recomputed :
    (∀ it a, recomputeItem { it with amount := a } = recomputeItem it) ∧
    (∀ (db : Database) (code : Str) (items : List InvoiceItem) (notes : Str)
        (now due : Int) (cu : Customer) (inv : Invoice),
      (valuesA db.customers).find? (fun c => decide (c.code = code)) = some cu →
      items ≠ [] →
      (createInvoiceGui db code items notes now (some due)).2 = .ok inv →
      inv.items = items.map recomputeItem ∧
      (∀ it ∈ inv.items, it.amount = (it.quantity : Rat) * it.rate) ∧
      inv.subtotal = (inv.items.map (fun it => it.amount)).sum ∧
      inv.total = inv.subtotal) ∧
    (∀ (db : Database) (num : Str) (items : List InvoiceItem) (notes : Str)
        (due : Int) (paid : Bool) (inv0 : Invoice),
      lookupA num db.invoices = some inv0 →
      items ≠ [] →
      (editInvoiceGui db num items notes (some due) paid).2 = .ok () ∧
      ∃ inv, lookupA num (editInvoiceGui db num items notes (some due) paid).1.invoices =
          some inv ∧
        inv.items = items.map recomputeItem ∧
        (∀ it ∈ inv.items, it.amount = (it.quantity : Rat) * it.rate) ∧
        inv.subtotal = (inv.items.map (fun it => it.amount)).sum ∧
        inv.total = inv.subtotal) := by
  refine ⟨?_, ?_, ?_⟩
  · intro it a
    simp [recomputeItem]
  · intro db code items notes now due cu inv hfind hitems hok
    rw [createInvoiceGui_ok hfind hitems] at hok
    have hinv : inv = mkCreatedInvoice db code cu items notes now due := by
      injection hok with h1
      exact h1.symm
    subst hinv
    refine ⟨rfl, ?_, ?_, rfl⟩
    · intro it hit
      exact amount_recomputed hit
    · exact foldl_amount_eq_sum _
  · intro db num items notes due paid inv0 hinv hitems
    rw [editInvoiceGui_ok hinv hitems]
    refine ⟨rfl, mkEditedInvoice inv0 items notes due paid, ?_, rfl, ?_, ?_, rfl⟩
    · exact lookupA_insertA_self _ _ _
    · intro it hit
      exact amount_recomputed hit
    · exact foldl_amount_eq_sum _

theorem C6_amounts_recomputed_witness :
    recomputeItem { wItem1 with amount := 5 } = recomputeItem wItem1 ∧
    (mkCreatedInvoice wDbAC "AC".toList wCustomerAC [wItem1, wItem2] [] 0 1).subtotal =
      ((mkCreatedInvoice wDbAC "AC".toList wCustomerAC [wItem1, wItem2] [] 0
        1).items.map (fun it => it.amount)).sum := by
  have h := (C6_amounts_recomputed.2.1 wDbAC "AC".toList [wItem1, wItem2] [] 0 1
    wCustomerAC (mkCreatedInvoice wDbAC "AC".toList wCustomerAC [wItem1, wItem2] [] 0 1)
    (by decide) (by decide)
    (by rw [@createInvoiceGui_ok wDbAC ("AC".toList) wCustomerAC [wItem1, wItem2]
      ([]) 0 1 (by decide) (by decide)]))
  exact ⟨C6_amounts_recomputed.1 wItem1 5, h.2.2.1⟩

/-! ## C8: adding a customer with a code already in use -/

/-- C8: if some existing customer already carries the normalized code of the
submitted customer, and the submitted (trimmed) name does not key an existing
customer, then `add_customer_gui` fails with `InvalidInput` and the aggregate
is exactly as before the call. -/
theorem C8_add_duplicate_code (db : Database) (cu c0 : Customer)
    (hmem : c0 ∈ valuesA db.customers)
    (hcode : c0.code = toUpperStr (trimStr cu.code))
    (hname : lookupA (trimStr cu.name) db.customers = none)
    (hvalid : validCodeFormat c0.code = true) :
    (∃ msg, (addCustomerGui db cu).2 = .error (.InvalidInput msg)) ∧
    (addCustomerGui db cu).1 = db := by
  simp only [addCustomerGui]
  by_cases h1 : trimStr cu.name = []
  · rw [if_pos h1]
    exact ⟨⟨_, rfl⟩, rfl⟩
  · rw [if_neg h1]
    have h2 : containsA (trimStr cu.name) db.customers = false := by
      rw [containsA, hname]
      rfl
    rw [if_neg (by simp [h2])]
    have h3 : validCodeFormat (toUpperStr (trimStr cu.code)) = true := hcode ▸ hvalid
    rw [if_neg (by simp [h3])]
    have h4 : (valuesA db.customers).any
        (fun c => decide (c.code = toUpperStr (trimStr cu.code))) = true := by
      rw [List.any_eq_true]
      exact ⟨c0, hmem, by simp [hcode]⟩
    rw [if_pos h4]
    exact ⟨⟨_, rfl⟩, rfl⟩

/-- A second concrete customer: different name, same code `AC`. -/
def wCustomerBetaAC : Customer := { wCustomerAC with name := "Beta".toList }

theorem C8_add_duplicate_code_witness :
    (∃ msg, (addCustomerGui wDbAC wCustomerBetaAC).2 = .error (.InvalidInput msg)) ∧
    (addCustomerGui wDbAC wCustomerBetaAC).1 = wDbAC :=
  C8_add_duplicate_code wDbAC wCustomerBetaAC wCustomerAC
    (by decide) (by decide) (by decide) (by decide)

/-! ## C4: deleting a customer cascades exactly to its invoices -/

theorem lookupA_of_mem_nodup {α : Type} : ∀ {m : AMap α}, (keysA m).Nodup →
    ∀ {k : Str} {v : α}, (k, v) ∈ m → lookupA k m = some v := by
  intro m
  induction m with
  | nil => intro _ k v h; simp at h
  | cons p rest ih =>
    intro hn k v h
    rcases p with ⟨k₁, v₁⟩
    rw [keysA, List.map_cons] at hn
    rw [List.nodup_cons] at hn
    rcases List.mem_cons.mp h with he | hm
    · injection he with he1 he2
      subst he1
      subst he2
      rw [lookupA, if_pos rfl]
    · have hk : k ≠ k₁ := by
        intro he
        subst he
        exact hn.1 (List.mem_map.mpr ⟨(k, v), hm, rfl⟩)
      rw [lookupA, if_neg (fun hh => hk hh.symm)]
      exact ih hn.2 hm

theorem foldl_eraseA_lookup {α : Type} : ∀ (ks : List Str) (m : AMap α) (k : Str),
    lookupA k (ks.foldl (fun m' k' => eraseA k' m') m) =
      if k ∈ ks then none else lookupA k m := by
  intro ks
  induction ks with
  | nil => intro m k; simp
  | cons a ks ih =>
    intro m k
    rw [List.foldl_cons, ih]
    by_cases h1 : k = a
    · subst h1
      rw [if_pos (List.mem_cons_self _ _)]
      by_cases h2 : k ∈ ks
      · rw [if_pos h2]
      · rw [if_neg h2, lookupA_eraseA_self]
    · by_cases h2 : k ∈ ks
      · rw [if_pos h2, if_pos (List.mem_cons_of_mem _ h2)]
      · rw [if_neg h2, if_neg (by simp [h1, h2]),
          lookupA_eraseA_ne (fun he => h1 he.symm)]

theorem mem_cascade_keys {k code : Str} {m : AMap Invoice} :
    k ∈ (m.filter (fun p => decide (p.2.customer.code = code))).map Prod.fst ↔
      ∃ inv, (k, inv) ∈ m ∧ inv.customer.code = code := by
  constructor
  · intro h
    rcases List.mem_map.mp h with ⟨p, hp, hfst⟩
    rcases List.mem_filter.mp hp with ⟨hpm, hpc⟩
    simp at hpc
    exact ⟨p.2, by rw [← hfst]; exact hpm, hpc⟩
  · rintro ⟨inv, hmem, hcode⟩
    exact List.mem_map.mpr ⟨(k, inv),
      List.mem_filter.mpr ⟨hmem, by simp [hcode]⟩, rfl⟩

/-- C4: `delete_customer_gui` on a registered code removes the customer found
for that code, removes the sequence counter stored under that code, and
removes exactly the invoices whose embedded customer snapshot carries that
code; every other customer, counter and invoice is untouched, and so is the
company profile. -/
theorem C4_delete_customer_cascade (db : Database) (code : Str) (cu : Customer)
    (hfind : (valuesA db.customers).find? (fun c => decide (c.code = code)) = some cu)
    (hnodup : (keysA db.invoices).Nodup) :
    (deleteCustomerGui db code).2 = .ok () ∧
    (deleteCustomerGui db code).1.company = db.company ∧
    lookupA cu.name (deleteCustomerGui db code).1.customers = none ∧
    (∀ k, k ≠ cu.name →
      lookupA k (deleteCustomerGui db code).1.customers = lookupA k db.customers) ∧
    lookupA code (deleteCustomerGui db code).1.last_invoice_nums = none ∧
    (∀ c, c ≠ code →
      lookupA c (deleteCustomerGui db code).1.last_invoice_nums =
        lookupA c db.last_invoice_nums) ∧
    (∀ k inv, lookupA k db.invoices = some inv → inv.customer.code = code →
      lookupA k (deleteCustomerGui db code).1.invoices = none) ∧
    (∀ k inv, lookupA k db.invoices = some inv → inv.customer.code ≠ code →
      lookupA k (deleteCustomerGui db code).1.invoices = some inv) ∧
    (∀ k inv, lookupA k (deleteCustomerGui db code).1.invoices = some inv →
      lookupA k db.invoices = some inv) := by
  have hred : deleteCustomerGui db code =
      ({ db with
          customers := eraseA cu.name db.customers
          invoices := ((db.invoices.filter
            (fun p => decide (p.2.customer.code = code))).map Prod.fst).foldl
            (fun m k => eraseA k m) db.invoices
          last_invoice_nums := eraseA code db.last_invoice_nums }, .ok ()) := by
    rw [deleteCustomerGui, hfind]
  rw [hred]
  refine ⟨rfl, rfl, lookupA_eraseA_self _ _,
    fun k hk => lookupA_eraseA_ne (fun he => hk he.symm) _,
    lookupA_eraseA_self _ _,
    fun c hc => lookupA_eraseA_ne (fun he => hc he.symm) _,
    ?_, ?_, ?_⟩
  · intro k inv hk hcode
    rw [foldl_eraseA_lookup,
      if_pos (mem_cascade_keys.mpr ⟨inv, lookupA_mem hk, hcode⟩)]
  · intro k inv hk hcode
    rw [foldl_eraseA_lookup, if_neg, hk]
    intro hmem
    rcases mem_cascade_keys.mp hmem with ⟨inv', hmem', hcode'⟩
    have := lookupA_of_mem_nodup hnodup hmem'
    rw [hk] at this
    injection this with he
    exact hcode (he ▸ hcode')
  · intro k inv h
    rw [foldl_eraseA_lookup] at h
    split at h
    · exact Option.noConfusion h
    · exact h

theorem C4_delete_customer_cascade_witness :
    (deleteCustomerGui wDbAC "AC".toList).2 = .ok () ∧
    (deleteCustomerGui wDbAC "AC".toList).1.company = wDbAC.company ∧
    lookupA wCustomerAC.name (deleteCustomerGui wDbAC "AC".toList).1.customers = none ∧
    (∀ k, k ≠ wCustomerAC.name →
      lookupA k (deleteCustomerGui wDbAC "AC".toList).1.customers =
        lookupA k wDbAC.customers) ∧
    lookupA "AC".toList (deleteCustomerGui wDbAC "AC".toList).1.last_invoice_nums = none ∧
    (∀ c, c ≠ "AC".toList →
      lookupA c (deleteCustomerGui wDbAC "AC".toList).1.last_invoice_nums =
        lookupA c wDbAC.last_invoice_nums) ∧
    (∀ k inv, lookupA k wDbAC.invoices = some inv → inv.customer.code = "AC".toList →
      lookupA k (deleteCustomerGui wDbAC "AC".toList).1.invoices = none) ∧
    (∀ k inv, lookupA k wDbAC.invoices = some inv → inv.customer.code ≠ "AC".toList →
      lookupA k (deleteCustomerGui wDbAC "AC".toList).1.invoices = some inv) ∧
    (∀ k inv, lookupA k (deleteCustomerGui wDbAC "AC".toList).1.invoices = some inv →
      lookupA k wDbAC.invoices = some inv) :=
  C4_delete_customer_cascade wDbAC "AC".toList wCustomerAC (by decide) (by decide)

/-! ## C5: editing a customer code migrates the sequence counter -/

theorem validCode_all_alpha {s : Str} (h : validCodeFormat s = true) :
    s.all isAsciiAlphabetic = true := by
  rw [validCodeFormat] at h
  simp at h
  rw [List.all_eq_true]
  exact fun c hc => h.2 c hc

/-- C5: a successful `edit_customer_gui` call that changes the customer's
code moves the sequence counter from the old code to the new one, preserving
the accumulated value and defaulting to 75 when no counter existed; the
registry binds the new (trimmed) name to the updated customer, the old key is
gone when the name changed, and invoice numbers formed from the old and the
new code can never collide. -/
theorem C5_edit_code_migration (db : Database) (orig : Str) (upd oc : Customer)
    (hoc : lookupA orig db.customers = some oc)
    (hchanged : oc.code ≠ toUpperStr (trimStr upd.code))
    (hvalidold : validCodeFormat oc.code = true)
    (hok : (editCustomerGui db orig upd).2 = .ok ()) :
    (editCustomerGui db orig upd).1.last_invoice_nums =
      insertA (toUpperStr (trimStr upd.code))
        ((lookupA oc.code db.last_invoice_nums).getD 75)
        (eraseA oc.code db.last_invoice_nums) ∧
    lookupA (trimStr upd.name) (editCustomerGui db orig upd).1.customers =
      some { upd with name := trimStr upd.name, code := toUpperStr (trimStr upd.code) } ∧
    (orig ≠ trimStr upd.name →
      lookupA orig (editCustomerGui db orig upd).1.customers = none) ∧
    (∀ m n : Nat, oc.code ++ natRepr m ≠ toUpperStr (trimStr upd.code) ++ natRepr n) := by
  have hcollision : ∀ m n : Nat,
      oc.code ++ natRepr m ≠ toUpperStr (trimStr upd.code) ++ natRepr n := by
    intro m n hcon
    by_cases hvnew : validCodeFormat (toUpperStr (trimStr upd.code)) = true
    · exact hchanged (invoiceNumber_inj (validCode_all_alpha hvalidold)
        (validCode_all_alpha hvnew) hcon).1
    · simp only [editCustomerGui, hoc] at hok
      split_ifs at hok <;> simp_all
  simp only [editCustomerGui, hoc] at hok ⊢
  split_ifs at hok ⊢ <;> try exact Except.noConfusion hok
  all_goals try (rename_i h5; exact absurd (not_not.mp h5) hchanged)
  refine ⟨rfl, lookupA_insertA_self _ _ _, ?_, hcollision⟩
  intro hname
  rw [lookupA_insertA_ne (fun he => hname he.symm), lookupA_eraseA_self]

/-- The edited customer: same data, new code `CD`. -/
def wCustomerCD : Customer := { wCustomerAC with code := "CD".toList }

theorem C5_edit_code_migration_witness :
    (editCustomerGui wDbAC "Acme".toList wCustomerCD).1.last_invoice_nums =
      insertA "CD".toList
        ((lookupA "AC".toList wDbAC.last_invoice_nums).getD 75)
        (eraseA "AC".toList wDbAC.last_invoice_nums) ∧
    lookupA "Acme".toList (editCustomerGui wDbAC "Acme".toList wCustomerCD).1.customers =
      some { wCustomerCD with name := "Acme".toList, code := "CD".toList } ∧
    ("Acme".toList ≠ "Acme".toList →
      lookupA "Acme".toList
        (editCustomerGui wDbAC "Acme".toList wCustomerCD).1.customers = none) ∧
    (∀ m n : Nat, "AC".toList ++ natRepr m ≠ "CD".toList ++ natRepr n) :=
  C5_edit_code_migration wDbAC "Acme".toList wCustomerCD wCustomerAC
    (by decide) (by decide) (by decide) (by decide)

/-! ## C10: the customer registry stays well-formed -/

/-- Well-formedness of one customer-registry entry: the key equals the stored
customer's name, the name is non-empty after trimming, and the code is 2–3
uppercase ASCII letters. -/
def entryWF (p : Str × Customer) : Prop :=
  p.1 = p.2.name ∧ trimStr p.2.name ≠ [] ∧
    2 ≤ p.2.code.length ∧ p.2.code.length ≤ 3 ∧ p.2.code.all isAsciiUpper = true

instance (p : Str × Customer) : Decidable (entryWF p) := by
  unfold entryWF
  infer_instance

/-- Well-formedness of the whole customer registry. -/
def customersWF (db : Database) : Prop :=
  ∀ p ∈ db.customers, entryWF p

instance (db : Database) : Decidable (customersWF db) := by
  unfold customersWF
  infer_instance

theorem createInvoiceGui_customers (db : Database) (code : Str)
    (items : List InvoiceItem) (notes : Str) (now : Int) (conv : Option Int) :
    (createInvoiceGui db code items notes now conv).1.customers = db.customers := by
  cases hcu : (valuesA db.customers).find? (fun c => decide (c.code = code)) with
  | none => simp [createInvoiceGui, hcu]
  | some cu =>
    cases conv with
    | none =>
      simp only [createInvoiceGui, hcu]
      split_ifs <;> rfl
    | some d =>
      simp only [createInvoiceGui, hcu]
      split_ifs <;> rfl

theorem editInvoiceGui_customers (db : Database) (num : Str)
    (items : List InvoiceItem) (notes : Str) (conv : Option Int) (paid : Bool) :
    (editInvoiceGui db num items notes conv paid).1.customers = db.customers := by
  cases hinv : lookupA num db.invoices with
  | none => simp [editInvoiceGui, hinv]
  | some inv =>
    cases conv with
    | none =>
      simp only [editInvoiceGui, hinv]
      split_ifs <;> rfl
    | some d =>
      simp only [editInvoiceGui, hinv]
      split_ifs <;> rfl

theorem deleteInvoiceGui_customers (db : Database) (num : Str) :
    (deleteInvoiceGui db num).1.customers = db.customers := by
  simp only [deleteInvoiceGui]
  split_ifs <;> rfl

theorem markInvoicePaidGui_customers (db : Database) (num : Str) :
    (markInvoicePaidGui db num).1.customers = db.customers := by
  cases hinv : lookupA num db.invoices <;> simp [markInvoicePaidGui, hinv]

/-- The customer stored by a successful add/edit is a well-formed entry. -/
theorem entryWF_new {nameRaw codeRaw : Str}
    (hname : trimStr nameRaw ≠ [])
    (hfmt : validCodeFormat (toUpperStr (trimStr codeRaw)) = true)
    (c0 : Customer) :
    entryWF (trimStr nameRaw,
      { c0 with name := trimStr nameRaw, code := toUpperStr (trimStr codeRaw) }) := by
  have hlen := hfmt
  rw [validCodeFormat] at hlen
  simp at hlen
  exact ⟨rfl, trimStr_trim_ne_nil hname, hlen.1.1, hlen.1.2,
    toUpperStr_all_upper (validCode_all_alpha hfmt)⟩

theorem addCustomerGui_wf {db : Database} (h : customersWF db) (c : Customer) :
    customersWF (addCustomerGui db c).1 := by
  simp only [addCustomerGui]
  split_ifs with h1 h2 h3 h4
  all_goals try exact h
  intro p hp
  rcases mem_insertA hp with he | hm
  · subst he
    exact entryWF_new h1 (by first | exact h3 | exact not_not.mp (by simpa using h3)) c
  · exact h p hm

theorem editCustomerGui_wf {db : Database} (h : customersWF db)
    (orig : Str) (c : Customer) : customersWF (editCustomerGui db orig c).1 := by
  cases hoc : lookupA orig db.customers with
  | none =>
    simp only [editCustomerGui, hoc]
    split_ifs <;> exact h
  | some oc =>
    simp only [editCustomerGui, hoc]
    split_ifs with h1 h2 h3 h4
    all_goals try exact h
    all_goals intro p hp
    all_goals rcases mem_insertA hp with he | hm
    all_goals try exact h p (mem_eraseA hm).1
    all_goals subst he
    all_goals exact entryWF_new h1 h2 c

theorem deleteCustomerGui_wf {db : Database} (h : customersWF db) (code : Str) :
    customersWF (deleteCustomerGui db code).1 := by
  cases hcu : (valuesA db.customers).find? (fun c => decide (c.code = code)) with
  | none => simp only [deleteCustomerGui, hcu]; exact h
  | some c =>
    simp only [deleteCustomerGui, hcu]
    intro p hp
    exact h p (mem_eraseA hp).1

theorem applyOp_customersWF {db : Database} (h : customersWF db) (op : Op) :
    customersWF (applyOp db op) := by
  cases op with
  | addCustomer c => exact addCustomerGui_wf h c
  | editCustomer orig c => exact editCustomerGui_wf h orig c
  | deleteCustomer code => exact deleteCustomerGui_wf h code
  | createInvoice code items notes now conv =>
    intro p hp
    rw [applyOp, createInvoiceGui_customers] at hp
    exact h p hp
  | editInvoice num items notes conv paid =>
    intro p hp
    rw [applyOp, editInvoiceGui_customers] at hp
    exact h p hp
  | deleteInvoice num =>
    intro p hp
    rw [applyOp, deleteInvoiceGui_customers] at hp
    exact h p hp
  | markPaid num =>
    intro p hp
    rw [applyOp, markInvoicePaidGui_customers] at hp
    exact h p hp

theorem runOps_customersWF : ∀ (ops : List Op) {db : Database},
    customersWF db → customersWF (runOps db ops) := by
  intro ops
  induction ops with
  | nil => intro db h; exact h
  | cons op rest ih =>
    intro db h
    exact ih (applyOp_customersWF h op)

/-- C10: every record operation preserves well-formedness of the customer
registry (keys equal stored names, names non-empty after trimming, codes are
2–3 uppercase ASCII letters), so the invariant holds in every state reachable
from a fresh store. -/
theorem C10_registry_wellformed :
    (∀ (db : Database) (op : Op), customersWF db → customersWF (applyOp db op)) ∧
    (∀ ops : List Op, customersWF (runOps Database.new ops)) :=
  ⟨fun _db op h => applyOp_customersWF h op,
   fun ops => runOps_customersWF ops (fun p hp => absurd hp (by simp [Database.new]))⟩

theorem C10_registry_wellformed_witness :
    customersWF (applyOp wDbAC (.addCustomer wCustomerBetaAC)) :=
  C10_registry_wellformed.1 wDbAC (.addCustomer wCustomerBetaAC) (by decide)

/-! ## C3: global uniqueness of invoice numbers -/

/-- Customer `Acme` with code `AB`. -/
def wCustomerAB : Customer := { wCustomerAC with code := "AB".toList }

/-- Customer `Beta` with code `AB`. -/
def wCustomerBetaAB : Customer :=
  { wCustomerAC with name := "Beta".toList, code := "AB".toList }

/-- The operation sequence that frees code `AB` by an edit and re-registers
it for a different customer, re-seeding the sequence counter at 75. -/
def wC3Ops : List Op :=
  [.addCustomer wCustomerAB,
   .createInvoice "AB".toList [wItem1] [] 0 (some 0),
   .editCustomer "Acme".toList wCustomerCD,
   .addCustomer wCustomerBetaAB]

/-- The state reached by `wC3Ops` from a fresh store. -/
def wC3State : Database := runOps Database.new wC3Ops

/-- C3 counterexample: in the reachable state `wC3State` the invoice number
`AB76` is already registered (created for `Acme`/`AB`, whose code was then
edited to `CD`, freeing `AB` for `Beta` with a counter re-seeded at 75), and
the next Create Invoice for `AB` assigns `AB76` again: the registry does not
grow and the invoice stored under `AB76` is silently replaced (its issue date
changes from 0 to 1). This refutes global uniqueness over all reachable
states. -/
theorem C3_counterexample :
    containsA ("AB".toList ++ natRepr 76) wC3State.invoices = true ∧
    ((createInvoiceGui wC3State "AB".toList [wItem2] [] 1 (some 1)).2.toOption.map
      (fun i => i.invoice_number)) = some ("AB".toList ++ natRepr 76) ∧
    (createInvoiceGui wC3State "AB".toList [wItem2] [] 1 (some 1)).1.invoices.length =
      wC3State.invoices.length ∧
    ((lookupA ("AB".toList ++ natRepr 76) wC3State.invoices).map (fun i => i.date)) =
      some 0 ∧
    ((lookupA ("AB".toList ++ natRepr 76)
      (createInvoiceGui wC3State "AB".toList [wItem2] [] 1 (some 1)).1.invoices).map
      (fun i => i.date)) = some 1 :=
  ⟨by decide, by decide, by decide, by decide, by decide⟩

/-- Guard for the amended claim: the operation, applied in state `db`, does
not change any customer's stored code (Edit Customer keeps the code). -/
def opPreservesCode (db : Database) : Op → Prop
  | .editCustomer orig c =>
    ∀ oc, lookupA orig db.customers = some oc → toUpperStr (trimStr c.code) = oc.code
  | _ => True

/-- A run in which no Edit Customer call changes a stored code. -/
def GuardedRun : Database → List Op → Prop
  | _, [] => True
  | db, op :: rest => opPreservesCode db op ∧ GuardedRun (applyOp db op) rest

/-- Invariant tied to one invoice-registry entry: the stored number equals
the key, the snapshot code is a valid code, and the key is the snapshot code
followed by a decimal suffix no larger than that code's counter value. -/
def invoiceEntryInv (nums : AMap Nat) (p : Str × Invoice) : Prop :=
  p.2.invoice_number = p.1 ∧
  validCodeFormat p.2.customer.code = true ∧
  ∃ m, m ≤ (lookupA p.2.customer.code nums).getD 75 ∧
    p.1 = p.2.customer.code ++ natRepr m

/-- Invariant of the whole invoice registry. -/
def invoicesInv (db : Database) : Prop :=
  ∀ p ∈ db.invoices, invoiceEntryInv db.last_invoice_nums p

theorem invoiceEntryInv_mono {nums nums' : AMap Nat} {p : Str × Invoice}
    (hle : ∀ c, (lookupA c nums).getD 75 ≤ (lookupA c nums').getD 75)
    (h : invoiceEntryInv nums p) : invoiceEntryInv nums' p := by
  obtain ⟨h1, h2, m, hm, he⟩ := h
  exact ⟨h1, h2, m, le_trans hm (hle _), he⟩

theorem getD_seedA (k c : Str) (v : Nat) (m : AMap Nat) :
    (lookupA c (seedA k v m)).getD v = (lookupA c m).getD v := by
  cases hm : lookupA k m with
  | none =>
    rw [lookupA_seedA_absent c hm]
    split_ifs with h
    · subst h
      rw [hm]
      rfl
    · rfl
  | some w => rw [lookupA_seedA_present c hm]

theorem getD_insertA_bump (code : Str) (nums : AMap Nat) (c : Str) :
    (lookupA c nums).getD 75 ≤
      (lookupA c (insertA code ((lookupA code nums).getD 75 + 1) nums)).getD 75 := by
  rw [lookupA_insertA]
  split_ifs with h
  · subst h
    exact Nat.le_succ _
  · exact le_refl _

theorem upper_imp_alpha {c : Char} (h : isAsciiUpper c = true) :
    isAsciiAlphabetic c = true := by
  rw [isAsciiAlphabetic, h, Bool.true_or]

theorem entryWF_validCode {p : Str × Customer} (h : entryWF p) :
    validCodeFormat p.2.code = true := by
  obtain ⟨-, -, h2, h3, h4⟩ := h
  rw [validCodeFormat]
  simp only [Bool.and_eq_true, decide_eq_true_eq]
  rw [List.all_eq_true] at h4 ⊢
  exact ⟨⟨by simpa using h2, by simpa using h3⟩,
    fun c hc => upper_imp_alpha (h4 c hc)⟩

theorem mem_foldl_eraseA {α : Type} : ∀ (ks : List Str) (m : AMap α) {p : Str × α},
    p ∈ ks.foldl (fun m' k => eraseA k m') m → p ∈ m ∧ p.1 ∉ ks := by
  intro ks
  induction ks with
  | nil => intro m p h; simpa using h
  | cons a ks ih =>
    intro m p h
    rw [List.foldl_cons] at h
    obtain ⟨h1, h2⟩ := ih _ h
    obtain ⟨h3, h4⟩ := mem_eraseA h1
    refine ⟨h3, ?_⟩
    intro hmem
    rcases List.mem_cons.mp hmem with he | hm
    · exact h4 he
    · exact h2 hm

/-- In a state satisfying both invariants, the number the allocator would
assign next for a valid code is not yet a key of the invoice registry. -/
theorem fresh_number_not_mem {db : Database} (hcw : customersWF db)
    (hinv : invoicesInv db) {code : Str} (hvc : validCodeFormat code = true) :
    lookupA (code ++ natRepr (counterVal db code + 1)) db.invoices = none := by
  cases hl : lookupA (code ++ natRepr (counterVal db code + 1)) db.invoices with
  | none => rfl
  | some inv =>
    exfalso
    have hmem := lookupA_mem hl
    obtain ⟨h1, h2, m, hm, he⟩ := hinv _ hmem
    obtain ⟨hc, hm2⟩ :=
      invoiceNumber_inj (validCode_all_alpha hvc) (validCode_all_alpha h2) he
    rw [← hc, ← hm2] at hm
    simp only [counterVal] at hm
    omega

theorem find?_customer_code {db : Database} {code : Str} {cu : Customer}
    (hfind : (valuesA db.customers).find? (fun c => decide (c.code = code)) = some cu) :
    cu.code = code := by
  have := List.find?_some hfind
  simpa using this

theorem find?_customer_valid {db : Database} {code : Str} {cu : Customer}
    (hcw : customersWF db)
    (hfind : (valuesA db.customers).find? (fun c => decide (c.code = code)) = some cu) :
    validCodeFormat cu.code = true := by
  have hmem := List.mem_of_find?_eq_some hfind
  rcases List.mem_map.mp hmem with ⟨p, hp, hpc⟩
  have := entryWF_validCode (hcw p hp)
  rw [hpc] at this
  exact this

theorem addCustomerGui_invoicesInv {db : Database} (hinv : invoicesInv db)
    (c : Customer) : invoicesInv (addCustomerGui db c).1 := by
  simp only [addCustomerGui]
  split_ifs with h1 h2 h3 h4
  all_goals try exact hinv
  intro p hp
  exact invoiceEntryInv_mono (fun c' => by rw [getD_seedA]) (hinv p hp)

theorem editCustomerGui_invoicesInv {db : Database} (hinv : invoicesInv db)
    (orig : Str) (c : Customer)
    (hguard : ∀ oc, lookupA orig db.customers = some oc →
      toUpperStr (trimStr c.code) = oc.code) :
    invoicesInv (editCustomerGui db orig c).1 := by
  cases hoc : lookupA orig db.customers with
  | none =>
    simp only [editCustomerGui, hoc]
    split_ifs <;> exact hinv
  | some oc =>
    simp only [editCustomerGui, hoc]
    split_ifs with h1 h2 h3 h4 h5
    all_goals try exact hinv
    exact absurd (hguard oc hoc).symm h5

theorem deleteCustomerGui_invoicesInv {db : Database} (hinv : invoicesInv db)
    (code : Str) : invoicesInv (deleteCustomerGui db code).1 := by
  cases hfind : (valuesA db.customers).find? (fun c => decide (c.code = code)) with
  | none =>
    simp only [deleteCustomerGui, hfind]
    exact hinv
  | some cu =>
    simp only [deleteCustomerGui, hfind]
    intro p hp
    obtain ⟨hmem, hnk⟩ := mem_foldl_eraseA _ _ hp
    obtain ⟨h1, h2, m, hm, he⟩ := hinv p hmem
    have hpc : p.2.customer.code ≠ code := by
      intro hc
      exact hnk (List.mem_map.mpr ⟨p, List.mem_filter.mpr ⟨hmem, by simp [hc]⟩, rfl⟩)
    refine ⟨h1, h2, m, ?_, he⟩
    rw [lookupA_eraseA_ne (fun hc => hpc hc.symm)]
    exact hm

theorem createInvoiceGui_invoicesInv {db : Database} (hcw : customersWF db)
    (hinv : invoicesInv db) (code : Str) (items : List InvoiceItem) (notes : Str)
    (now : Int) (conv : Option Int) :
    invoicesInv (createInvoiceGui db code items notes now conv).1 := by
  cases hfind : (valuesA db.customers).find? (fun c => decide (c.code = code)) with
  | none =>
    simp only [createInvoiceGui, hfind]
    exact hinv
  | some cu =>
    have hcode : cu.code = code := find?_customer_code hfind
    have hvalid : validCodeFormat cu.code = true := find?_customer_valid hcw hfind
    by_cases hitems : items = []
    · simp only [createInvoiceGui, hfind, if_pos hitems]
      exact hinv
    · cases conv with
      | none =>
        simp only [createInvoiceGui, hfind, generateNextInvoiceNumber, if_neg hitems]
        intro p hp
        exact invoiceEntryInv_mono (getD_insertA_bump code db.last_invoice_nums)
          (hinv p hp)
      | some d =>
        rw [createInvoiceGui_ok hfind hitems]
        intro p hp
        rcases mem_insertA hp with he | hm
        · subst he
          refine ⟨rfl, by rw [mkCreatedInvoice]; exact hcode ▸ hvalid,
            counterVal db code + 1, ?_, ?_⟩
          · rw [mkCreatedInvoice]
            simp only
            rw [hcode, lookupA_insertA_self, Option.getD_some]
          · rw [mkCreatedInvoice]
            simp only
            rw [hcode]
        · exact invoiceEntryInv_mono
            (by
              intro c'
              have := getD_insertA_bump code db.last_invoice_nums c'
              simpa [counterVal] using this)
            (hinv p hm)

theorem editInvoiceGui_invoicesInv {db : Database} (hinv : invoicesInv db)
    (num : Str) (items : List InvoiceItem) (notes : Str) (conv : Option Int)
    (paid : Bool) : invoicesInv (editInvoiceGui db num items notes conv paid).1 := by
  cases hlook : lookupA num db.invoices with
  | none =>
    simp only [editInvoiceGui, hlook]
    exact hinv
  | some inv0 =>
    by_cases hitems : items = []
    · simp only [editInvoiceGui, hlook, if_pos hitems]
      exact hinv
    · cases conv with
      | none =>
        simp only [editInvoiceGui, hlook, if_neg hitems]
        exact hinv
      | some d =>
        rw [editInvoiceGui_ok hlook hitems]
        intro p hp
        rcases mem_insertA hp with he | hm
        · subst he
          obtain ⟨h1, h2, m, hmle, hke⟩ := hinv (num, inv0) (lookupA_mem hlook)
          exact ⟨h1, h2, m, hmle, hke⟩
        · exact hinv p hm

theorem deleteInvoiceGui_invoicesInv {db : Database} (hinv : invoicesInv db)
    (num : Str) : invoicesInv (deleteInvoiceGui db num).1 := by
  simp only [deleteInvoiceGui]
  split_ifs with h
  · intro p hp
    exact hinv p (mem_eraseA hp).1
  · exact hinv

theorem markInvoicePaidGui_invoicesInv {db : Database} (hinv : invoicesInv db)
    (num : Str) : invoicesInv (markInvoicePaidGui db num).1 := by
  cases hlook : lookupA num db.invoices with
  | none =>
    simp only [markInvoicePaidGui, hlook]
    exact hinv
  | some inv0 =>
    simp only [markInvoicePaidGui, hlook]
    intro p hp
    rcases mem_insertA hp with he | hm
    · subst he
      obtain ⟨h1, h2, m, hmle, hke⟩ := hinv (num, inv0) (lookupA_mem hlook)
      exact ⟨h1, h2, m, hmle, hke⟩
    · exact hinv p hm

theorem applyOp_invoicesInv {db : Database} (hcw : customersWF db)
    (hinv : invoicesInv db) (op : Op) (hguard : opPreservesCode db op) :
    invoicesInv (applyOp db op) := by
  cases op with
  | addCustomer c => exact addCustomerGui_invoicesInv hinv c
  | editCustomer orig c => exact editCustomerGui_invoicesInv hinv orig c hguard
  | deleteCustomer code => exact deleteCustomerGui_invoicesInv hinv code
  | createInvoice code items notes now conv =>
    exact createInvoiceGui_invoicesInv hcw hinv code items notes now conv
  | editInvoice num items notes conv paid =>
    exact editInvoiceGui_invoicesInv hinv num items notes conv paid
  | deleteInvoice num => exact deleteInvoiceGui_invoicesInv hinv num
  | markPaid num => exact markInvoicePaidGui_invoicesInv hinv num

theorem runOps_invariants : ∀ (ops : List Op) {db : Database},
    customersWF db → invoicesInv db → GuardedRun db ops →
    customersWF (runOps db ops) ∧ invoicesInv (runOps db ops) := by
  intro ops
  induction ops with
  | nil => intro db hcw hinv _; exact ⟨hcw, hinv⟩
  | cons op rest ih =>
    intro db hcw hinv hg
    exact ih (applyOp_customersWF hcw op) (applyOp_invoicesInv hcw hinv op hg.1) hg.2

/-- C3 (amended): in every state reachable from a fresh store by record
operations among which no Edit Customer call changes a stored customer code,
every registered invoice still carries the number it was keyed under when
assigned (numbers are never changed by edit/mark-paid), and a Create Invoice
call that succeeds always assigns a number that was not yet present in the
registry, so no existing invoice is silently replaced. (The unrestricted
claim is refuted by `wC3State`: freeing a code via Edit Customer re-seeds its
counter and reuses numbers.) -/
theorem C3_amended_uniqueness (ops : List Op) (hg : GuardedRun Database.new ops) :
    (∀ p ∈ (runOps Database.new ops).invoices, p.2.invoice_number = p.1) ∧
    (∀ (code : Str) (items : List InvoiceItem) (notes : Str) (now : Int)
        (conv : Option Int) (inv : Invoice),
      (createInvoiceGui (runOps Database.new ops) code items notes now conv).2 =
        .ok inv →
      lookupA inv.invoice_number (runOps Database.new ops).invoices = none) := by
  obtain ⟨hcw, hinv⟩ := runOps_invariants ops
    (fun p hp => absurd hp (by simp [Database.new]))
    (fun p hp => absurd hp (by simp [Database.new])) hg
  refine ⟨fun p hp => (hinv p hp).1, ?_⟩
  intro code items notes now conv inv hok
  cases hfind : (valuesA (runOps Database.new ops).customers).find?
      (fun c => decide (c.code = code)) with
  | none =>
    rw [createInvoiceGui, hfind] at hok
    exact Except.noConfusion hok
  | some cu =>
    by_cases hitems : items = []
    · rw [createInvoiceGui, hfind] at hok
      simp only [if_pos hitems] at hok
      exact Except.noConfusion hok
    · cases conv with
      | none =>
        rw [createInvoiceGui, hfind] at hok
        simp only [if_neg hitems] at hok
        exact Except.noConfusion hok
      | some d =>
        rw [createInvoiceGui_ok hfind hitems] at hok
        injection hok with he
        rw [← he]
        rw [mkCreatedInvoice]
        simp only
        have hfresh := fresh_number_not_mem hcw hinv (find?_customer_valid hcw hfind)
        rw [find?_customer_code hfind] at hfresh
        exact hfresh

theorem C3_amended_uniqueness_witness :
    (∀ p ∈ (runOps Database.new [Op.addCustomer wCustomerAC]).invoices,
      p.2.invoice_number = p.1) ∧
    (∀ (code : Str) (items : List InvoiceItem) (notes : Str) (now : Int)
        (conv : Option Int) (inv : Invoice),
      (createInvoiceGui (runOps Database.new [Op.addCustomer wCustomerAC])
        code items notes now conv).2 = .ok inv →
      lookupA inv.invoice_number
        (runOps Database.new [Op.addCustomer wCustomerAC]).invoices = none) :=
  C3_amended_uniqueness [Op.addCustomer wCustomerAC] ⟨trivial, trivial⟩

/-! ## C7: save/load round trip

`save()` writes the aggregate with `serde_json::to_writer_pretty` and
`load()` reads it back with `serde_json::from_reader`. The text layer
(JSON value ↔ text) belongs to `serde_json`; what the repository's type
definitions determine is the mapping between the aggregate and the JSON
*value* (field names, nesting, maps as objects, vectors as arrays). That
mapping is modelled here: `encodeDatabase`/`decodeDatabase` mirror the
derived `Serialize`/`Deserialize` instances, and the persisted document is
modelled as the JSON value stored at the fixed path. -/

/-- JSON values (numbers split into integral instants and `f64`-as-`Rat`). -/
inductive Json where
  | str : Str → Json
  | num : Int → Json
  | rat : Rat → Json
  | bool : Bool → Json
  | arr : List Json → Json
  | obj : List (Str × Json) → Json

def encodeCompany (c : Company) : Json :=
  .obj [("name".toList, .str c.name), ("abn".toList, .str c.abn),
        ("address".toList, .str c.address), ("phone".toList, .str c.phone)]

def decodeCompany : Json → Option Company
  | .obj [(k1, .str name), (k2, .str abn), (k3, .str address), (k4, .str phone)] =>
    if k1 = "name".toList ∧ k2 = "abn".toList ∧ k3 = "address".toList ∧
        k4 = "phone".toList then
      some { name := name, abn := abn, address := address, phone := phone }
    else none
  | _ => none

def encodeCustomer (c : Customer) : Json :=
  .obj [("name".toList, .str c.name), ("address".toList, .str c.address),
        ("phone".toList, .str c.phone),
        ("contact_person".toList, .str c.contact_person),
        ("contact_phone".toList, .str c.contact_phone),
        ("email".toList, .str c.email), ("code".toList, .str c.code)]

def decodeCustomer : Json → Option Customer
  | .obj [(k1, .str name), (k2, .str address), (k3, .str phone), (k4, .str cp),
          (k5, .str cph), (k6, .str email), (k7, .str code)] =>
    if k1 = "name".toList ∧ k2 = "address".toList ∧ k3 = "phone".toList ∧
        k4 = "contact_person".toList ∧ k5 = "contact_phone".toList ∧
        k6 = "email".toList ∧ k7 = "code".toList then
      some { name := name, address := address, phone := phone,
             contact_person := cp, contact_phone := cph, email := email,
             code := code }
    else none
  | _ => none

def encodeItem (it : InvoiceItem) : Json :=
  .obj [("description".toList, .str it.description),
        ("quantity".toList, .num (it.quantity : Int)),
        ("rate".toList, .rat it.rate), ("amount".toList, .rat it.amount)]

def decodeItem : Json → Option InvoiceItem
  | .obj [(k1, .str description), (k2, .num quantity), (k3, .rat rate),
          (k4, .rat amount)] =>
    if k1 = "description".toList ∧ k2 = "quantity".toList ∧ k3 = "rate".toList ∧
        k4 = "amount".toList then
      some { description := description, quantity := quantity.toNat,
             rate := rate, amount := amount }
    else none
  | _ => none

def decodeItems : List Json → Option (List InvoiceItem)
  | [] => some []
  | j :: rest =>
    match decodeItem j, decodeItems rest with
    | some it, some its => some (it :: its)
    | _, _ => none

def encodeInvoice (inv : Invoice) : Json :=
  .obj [("invoice_number".toList, .str inv.invoice_number),
        ("date".toList, .num inv.date),
        ("due_date".toList, .num inv.due_date),
        ("customer".toList, encodeCustomer inv.customer),
        ("items".toList, .arr (inv.items.map encodeItem)),
        ("subtotal".toList, .rat inv.subtotal),
        ("total".toList, .rat inv.total),
        ("notes".toList, .str inv.notes),
        ("paid".toList, .bool inv.paid)]

def decodeInvoice : Json → Option Invoice
  | .obj [(k1, .str number), (k2, .num date), (k3, .num due_date), (k4, jcust),
          (k5, .arr jitems), (k6, .rat subtotal), (k7, .rat total),
          (k8, .str notes), (k9, .bool paid)] =>
    if k1 = "invoice_number".toList ∧ k2 = "date".toList ∧
        k3 = "due_date".toList ∧ k4 = "customer".toList ∧ k5 = "items".toList ∧
        k6 = "subtotal".toList ∧ k7 = "total".toList ∧ k8 = "notes".toList ∧
        k9 = "paid".toList then
      match decodeCustomer jcust, decodeItems jitems with
      | some customer, some items =>
        some { invoice_number := number, date := date, due_date := due_date,
               customer := customer, items := items, subtotal := subtotal,
               total := total, notes := notes, paid := paid }
      | _, _ => none
    else none
  | _ => none

/-- A `HashMap<String, V>` serializes as a JSON object. -/
def encodeStrMap {α : Type} (enc : α → Json) (m : AMap α) : List (Str × Json) :=
  m.map (fun p => (p.1, enc p.2))

def decodeStrMap {α : Type} (dec : Json → Option α) : List (Str × Json) → Option (AMap α)
  | [] => some []
  | (k, j) :: rest =>
    match dec j, decodeStrMap dec rest with
    | some v, some m => some ((k, v) :: m)
    | _, _ => none

def encodeDatabase (db : Database) : Json :=
  .obj [("company".toList, encodeCompany db.company),
        ("customers".toList, .obj (encodeStrMap encodeCustomer db.customers)),
        ("invoices".toList, .obj (encodeStrMap encodeInvoice db.invoices)),
        ("last_invoice_nums".toList,
          .obj (encodeStrMap (fun n : Nat => Json.num (Int.ofNat n))
            db.last_invoice_nums))]

def decodeDatabase : Json → Option Database
  | .obj [(k1, jcomp), (k2, .obj jcust), (k3, .obj jinv), (k4, .obj jnums)] =>
    if k1 = "company".toList ∧ k2 = "customers".toList ∧ k3 = "invoices".toList ∧
        k4 = "last_invoice_nums".toList then
      match decodeCompany jcomp, decodeStrMap decodeCustomer jcust,
          decodeStrMap decodeInvoice jinv,
          decodeStrMap (fun j => match j with
            | .num n => some n.toNat
            | _ => none) jnums with
      | some company, some customers, some invoices, some nums =>
        some { company := company, customers := customers, invoices := invoices,
               last_invoice_nums := nums }
      | _, _, _, _ => none
    else none
  | _ => none

theorem decodeCompany_encode (c : Company) :
    decodeCompany (encodeCompany c) = some c := by
  simp [encodeCompany, decodeCompany]

theorem decodeCustomer_encode (c : Customer) :
    decodeCustomer (encodeCustomer c) = some c := by
  simp [encodeCustomer, decodeCustomer]

theorem decodeItem_encode (it : InvoiceItem) :
    decodeItem (encodeItem it) = some it := by
  simp [encodeItem, decodeItem]

theorem decodeItems_encode (l : List InvoiceItem) :
    decodeItems (l.map encodeItem) = some l := by
  induction l with
  | nil => rfl
  | cons it rest ih =>
    rw [List.map_cons, decodeItems, decodeItem_encode, ih]

theorem decodeInvoice_encode (inv : Invoice) :
    decodeInvoice (encodeInvoice inv) = some inv := by
  rw [encodeInvoice, decodeInvoice]
  rw [if_pos (by exact ⟨rfl, rfl, rfl, rfl, rfl, rfl, rfl, rfl, rfl⟩)]
  rw [decodeCustomer_encode, decodeItems_encode]

theorem decodeStrMap_encode {α : Type} {enc : α → Json} {dec : Json → Option α}
    (h : ∀ a, dec (enc a) = some a) : ∀ m : AMap α,
    decodeStrMap dec (encodeStrMap enc m) = some m := by
  intro m
  induction m with
  | nil => rfl
  | cons p rest ih =>
    rw [encodeStrMap, List.map_cons, decodeStrMap, h]
    rw [encodeStrMap] at ih
    rw [ih]

theorem decodeDatabase_encode (db : Database) :
    decodeDatabase (encodeDatabase db) = some db := by
  rw [encodeDatabase, decodeDatabase]
  rw [if_pos (by exact ⟨rfl, rfl, rfl, rfl⟩)]
  rw [decodeCompany_encode,
    decodeStrMap_encode decodeCustomer_encode,
    decodeStrMap_encode decodeInvoice_encode,
    decodeStrMap_encode (fun n : Nat => rfl)]

/-- `Database::save`: truncate the document and write the serialized
aggregate. The document slot is the file at the fixed path (`none` when the
file does not exist). -/
def save (db : Database) (_doc : Option Json) : Option Json :=
  some (encodeDatabase db)

/-- `Database::load`: a missing document yields a fresh aggregate, a present
document is deserialized, and a malformed one fails with `Serialization`.
(The backup step that precedes loading copies the file and never alters the
document.) -/
def load (doc : Option Json) : Except DatabaseError Database :=
  match doc with
  | none => .ok Database.new
  | some j =>
    match decodeDatabase j with
    | some db => .ok db
    | none => .error (.Serialization "invalid database document".toList)

/-- C7: for every aggregate state and any previous document content,
`save()` followed by `load()` reproduces exactly the saved aggregate:
same company, same customer registry, same invoice registry, same
sequence-counter map. -/
theorem C7_save_load_roundtrip (db : Database) (doc : Option Json) :
    load (save db doc) = .ok db := by
  rw [save, load, decodeDatabase_encode]

/-! ## C9: backup rotation

`backup_database` copies `database.json` to `database.json.<ts>.bak`, lists
the files whose names start with `database.json` and end with `.bak`, sorts
them lexicographically and deletes the oldest ones beyond `MAX_BACKUPS`.
The working directory is modelled as the list of its file names. -/

/-- Lexicographic (byte-wise) `<=` on strings, as `PathBuf` ordering sorts. -/
def strLeB : Str → Str → Bool
  | [], _ => true
  | _ :: _, [] => false
  | a :: as, b :: bs =>
    if a.toNat < b.toNat then true
    else if a.toNat = b.toNat then strLeB as bs
    else false

/-- Strict lexicographic `<` on strings. -/
def strLtB : Str → Str → Bool
  | [], [] => false
  | [], _ :: _ => true
  | _ :: _, [] => false
  | a :: as, b :: bs =>
    if a.toNat < b.toNat then true
    else if a.toNat = b.toNat then strLtB as bs
    else false

/-- The sorting relation used for backup files. -/
def strLe (a b : Str) : Prop := strLeB a b = true

instance : DecidableRel strLe := fun a b => by
  unfold strLe
  infer_instance

theorem charEq_of_toNat {a b : Char} (h : a.toNat = b.toNat) : a = b := by
  apply Char.ext
  exact UInt32.toNat.inj h

theorem strLeB_total : ∀ a b : Str, strLeB a b = true ∨ strLeB b a = true := by
  intro a
  induction a with
  | nil => intro b; left; rfl
  | cons x xs ih =>
    intro b
    cases b with
    | nil => right; rfl
    | cons y ys =>
      rw [strLeB, strLeB]
      by_cases h1 : x.toNat < y.toNat
      · left
        rw [if_pos h1]
      · by_cases h2 : x.toNat = y.toNat
        · rw [if_neg h1, if_pos h2, if_neg (by omega), if_pos h2.symm]
          exact ih ys
        · right
          rw [if_pos (by omega)]

theorem strLeB_trans : ∀ a b c : Str, strLeB a b = true → strLeB b c = true →
    strLeB a c = true := by
  intro a
  induction a with
  | nil => intro b c _ _; rfl
  | cons x xs ih =>
    intro b c hab hbc
    cases b with
    | nil => exact absurd hab (by rw [strLeB]; simp)
    | cons y ys =>
      cases c with
      | nil => exact absurd hbc (by rw [strLeB]; simp)
      | cons z zs =>
        rw [strLeB] at hab hbc ⊢
        by_cases h1 : x.toNat < y.toNat <;> by_cases h2 : y.toNat < z.toNat
        · rw [if_pos (by omega)]
        · rw [if_neg h2] at hbc
          by_cases h3 : y.toNat = z.toNat
          · rw [if_pos (by omega)]
          · rw [if_neg h3] at hbc
            exact absurd hbc (by simp)
        · rw [if_neg h1] at hab
          by_cases h3 : x.toNat = y.toNat
          · rw [if_pos (by omega)]
          · rw [if_neg h3] at hab
            exact absurd hab (by simp)
        · rw [if_neg h1] at hab
          rw [if_neg h2] at hbc
          by_cases h3 : x.toNat = y.toNat
          · by_cases h4 : y.toNat = z.toNat
            · rw [if_neg (by omega), if_pos (by omega)]
              rw [if_pos h3] at hab
              rw [if_pos h4] at hbc
              exact ih ys zs hab hbc
            · rw [if_neg h4] at hbc
              exact absurd hbc (by simp)
          · rw [if_neg h3] at hab
            exact absurd hab (by simp)

theorem strLeB_antisymm : ∀ a b : Str, strLeB a b = true → strLeB b a = true →
    a = b := by
  intro a
  induction a with
  | nil =>
    intro b _ hba
    cases b with
    | nil => rfl
    | cons y ys => exact absurd hba (by rw [strLeB]; simp)
  | cons x xs ih =>
    intro b hab hba
    cases b with
    | nil => exact absurd hab (by rw [strLeB]; simp)
    | cons y ys =>
      rw [strLeB] at hab hba
      by_cases h1 : x.toNat < y.toNat
      · rw [if_neg (by omega), if_neg (by omega)] at hba
        exact absurd hba (by simp)
      · by_cases h2 : x.toNat = y.toNat
        · rw [if_neg h1, if_pos h2] at hab
          rw [if_neg (by omega), if_pos h2.symm] at hba
          rw [charEq_of_toNat h2, ih ys hab hba]
        · rw [if_neg h1, if_neg h2] at hab
          exact absurd hab (by simp)

instance : IsTotal Str strLe := ⟨strLeB_total⟩

instance : IsTrans Str strLe := ⟨strLeB_trans⟩

instance : IsAntisymm Str strLe := ⟨strLeB_antisymm⟩

theorem strLtB_le {a b : Str} (h : strLtB a b = true) : strLeB a b = true := by
  induction a generalizing b with
  | nil => rfl
  | cons x xs ih =>
    cases b with
    | nil => exact absurd h (by rw [strLtB]; simp)
    | cons y ys =>
      rw [strLtB] at h
      rw [strLeB]
      by_cases h1 : x.toNat < y.toNat
      · rw [if_pos h1]
      · by_cases h2 : x.toNat = y.toNat
        · rw [if_neg h1, if_pos h2] at h ⊢
          exact ih h
        · rw [if_neg h1, if_neg h2] at h
          exact absurd h (by simp)

theorem strLtB_irrefl : ∀ a : Str, strLtB a a = false := by
  intro a
  induction a with
  | nil => rfl
  | cons x xs ih =>
    rw [strLtB, if_neg (by omega), if_pos rfl]
    exact ih

theorem strLtB_ne {a b : Str} (h : strLtB a b = true) : a ≠ b := by
  intro he
  subst he
  rw [strLtB_irrefl] at h
  exact Bool.false_ne_true h

theorem strLtB_append_left : ∀ (p a b : Str),
    strLtB (p ++ a) (p ++ b) = strLtB a b := by
  intro p
  induction p with
  | nil => intro a b; rfl
  | cons x xs ih =>
    intro a b
    rw [List.cons_append, List.cons_append, strLtB, if_neg (by omega), if_pos rfl]
    exact ih a b

theorem strLtB_append_of_eqlen : ∀ {a b : Str}, strLtB a b = true →
    a.length = b.length → ∀ (s t : Str), strLtB (a ++ s) (b ++ t) = true := by
  intro a
  induction a with
  | nil =>
    intro b h hlen s t
    cases b with
    | nil => exact absurd h (by rw [strLtB_irrefl]; simp)
    | cons y ys => simp at hlen
  | cons x xs ih =>
    intro b h hlen s t
    cases b with
    | nil => simp at hlen
    | cons y ys =>
      rw [strLtB] at h
      rw [List.cons_append, List.cons_append, strLtB]
      by_cases h1 : x.toNat < y.toNat
      · rw [if_pos h1]
      · by_cases h2 : x.toNat = y.toNat
        · rw [if_neg h1, if_pos h2] at h ⊢
          exact ih h (by simpa using hlen) s t
        · rw [if_neg h1, if_neg h2] at h
          exact absurd h (by simp)

/-- `MAX_BACKUPS` from `database.rs`. -/
def MAX_BACKUPS : Nat := 5

/-- `DB_FILENAME`. -/
def dbFileName : Str := "database.json".toList

/-- The backup file suffix. -/
def bakSuffix : Str := ".bak".toList

/-- `str::starts_with` on model strings. -/
def isPrefixOfB : Str → Str → Bool
  | [], _ => true
  | _ :: _, [] => false
  | a :: as, b :: bs => if a = b then isPrefixOfB as bs else false

/-- `str::ends_with` on model strings. -/
def isSuffixOfB (a b : Str) : Bool := isPrefixOfB a.reverse b.reverse

/-- `filename.starts_with(DB_FILENAME) && filename.ends_with(".bak")`. -/
def isBakFile (f : Str) : Bool := isPrefixOfB dbFileName f && isSuffixOfB bakSuffix f

/-- `format!("{}.{}.bak", DB_FILENAME, timestamp)`. -/
def backupName (ts : Str) : Str := dbFileName ++ ".".toList ++ ts ++ bakSuffix

/-- The sort-collect-delete phase of `backup_database`, after the copy. -/
def rotateAfterCopy (dir1 : List Str) : List Str :=
  if (List.insertionSort strLe (dir1.filter isBakFile)).length > MAX_BACKUPS then
    dir1.filter (fun f => decide (f ∉
      (List.insertionSort strLe (dir1.filter isBakFile)).take
        ((List.insertionSort strLe (dir1.filter isBakFile)).length - MAX_BACKUPS)))
  else dir1

/-- `Database::backup_database` at timestamp `ts`, acting on the directory
listing: no-op when no document exists, otherwise copy the document to the
timestamped backup name (overwriting a same-named file) and rotate. -/
def backupRotate (ts : Str) (dir : List Str) : List Str :=
  if dbFileName ∈ dir then
    rotateAfterCopy (if backupName ts ∈ dir then dir else dir ++ [backupName ts])
  else dir

/-- Successive loads of the document at the given timestamps: each load
backs up (and rotates) before reading. -/
def runLoads (dir : List Str) (tss : List Str) : List Str :=
  tss.foldl (fun d ts => backupRotate ts d) dir

theorem isPrefixOfB_append : ∀ (p r : Str), isPrefixOfB p (p ++ r) = true := by
  intro p
  induction p with
  | nil => intro r; rfl
  | cons a as ih =>
    intro r
    rw [List.cons_append, isPrefixOfB, if_pos rfl]
    exact ih r

theorem isBakFile_backupName (ts : Str) : isBakFile (backupName ts) = true := by
  rw [isBakFile, Bool.and_eq_true]
  constructor
  · rw [backupName]
    exact isPrefixOfB_append _ _
  · rw [isSuffixOfB, backupName]
    have h1 : dbFileName ++ ".".toList ++ ts ++ bakSuffix =
        (dbFileName ++ (".".toList ++ ts)) ++ bakSuffix := by
      simp [List.append_assoc]
    rw [h1, List.reverse_append]
    exact isPrefixOfB_append _ _

theorem filter_not_mem_first {t d : List Str} (hnd : (t ++ d).Nodup) :
    (t ++ d).filter (fun f => decide (f ∉ t)) = d := by
  have hdisj := (List.nodup_append.mp hnd).2.2
  rw [List.filter_append]
  have h1 : t.filter (fun f => decide (f ∉ t)) = [] := by
    rw [List.filter_eq_nil_iff]
    intro a ha
    simp [ha]
  have h2 : d.filter (fun f => decide (f ∉ t)) = d := by
    rw [List.filter_eq_self]
    intro a ha
    simp
    intro hmem
    exact hdisj hmem ha
  rw [h1, h2, List.nil_append]

theorem filter_not_mem_take {l : List Str} (hn : l.Nodup) (k : Nat) :
    l.filter (fun f => decide (f ∉ l.take k)) = l.drop k := by
  have h := @filter_not_mem_first (l.take k) (l.drop k)
    (by rw [List.take_append_drop]; exact hn)
  rw [List.take_append_drop] at h
  exact h

/-- One rotation: the surviving backup files are exactly the
lexicographically largest `MAX_BACKUPS` of the collected backup files (the
deleted ones are the lexicographically smallest excess), and at most
`MAX_BACKUPS` remain. -/
theorem rotateAfterCopy_spec (dir1 : List Str) (hnd : dir1.Nodup) :
    List.insertionSort strLe ((rotateAfterCopy dir1).filter isBakFile) =
      (List.insertionSort strLe (dir1.filter isBakFile)).drop
        ((List.insertionSort strLe (dir1.filter isBakFile)).length - MAX_BACKUPS) ∧
    ((rotateAfterCopy dir1).filter isBakFile).length ≤ MAX_BACKUPS := by
  have hLnd : (dir1.filter isBakFile).Nodup := hnd.filter _
  have hperm : List.Perm (List.insertionSort strLe (dir1.filter isBakFile))
      (dir1.filter isBakFile) := List.perm_insertionSort _ _
  have hSnd : (List.insertionSort strLe (dir1.filter isBakFile)).Nodup :=
    hperm.nodup_iff.mpr hLnd
  have hsortS := List.sorted_insertionSort strLe (dir1.filter isBakFile)
  by_cases hgt : (List.insertionSort strLe (dir1.filter isBakFile)).length > MAX_BACKUPS
  · rw [rotateAfterCopy, if_pos hgt]
    have hcomm : ((dir1.filter (fun f => decide (f ∉
        (List.insertionSort strLe (dir1.filter isBakFile)).take
          ((List.insertionSort strLe (dir1.filter isBakFile)).length -
            MAX_BACKUPS)))).filter isBakFile) =
        ((dir1.filter isBakFile).filter (fun f => decide (f ∉
        (List.insertionSort strLe (dir1.filter isBakFile)).take
          ((List.insertionSort strLe (dir1.filter isBakFile)).length -
            MAX_BACKUPS)))) := List.filter_comm _ _ _
    have hpermf : List.Perm
        ((dir1.filter isBakFile).filter (fun f => decide (f ∉
          (List.insertionSort strLe (dir1.filter isBakFile)).take
            ((List.insertionSort strLe (dir1.filter isBakFile)).length -
              MAX_BACKUPS))))
        ((List.insertionSort strLe (dir1.filter isBakFile)).filter
          (fun f => decide (f ∉
          (List.insertionSort strLe (dir1.filter isBakFile)).take
            ((List.insertionSort strLe (dir1.filter isBakFile)).length -
              MAX_BACKUPS)))) := (hperm.filter _).symm
    have hdropeq : (List.insertionSort strLe (dir1.filter isBakFile)).filter
        (fun f => decide (f ∉
          (List.insertionSort strLe (dir1.filter isBakFile)).take
            ((List.insertionSort strLe (dir1.filter isBakFile)).length -
              MAX_BACKUPS))) =
        (List.insertionSort strLe (dir1.filter isBakFile)).drop
          ((List.insertionSort strLe (dir1.filter isBakFile)).length -
            MAX_BACKUPS) := filter_not_mem_take hSnd _
    rw [hdropeq] at hpermf
    have hpermall : List.Perm
        ((dir1.filter (fun f => decide (f ∉
          (List.insertionSort strLe (dir1.filter isBakFile)).take
            ((List.insertionSort strLe (dir1.filter isBakFile)).length -
              MAX_BACKUPS)))).filter isBakFile)
        ((List.insertionSort strLe (dir1.filter isBakFile)).drop
          ((List.insertionSort strLe (dir1.filter isBakFile)).length -
            MAX_BACKUPS)) := by
      rw [hcomm]
      exact hpermf
    constructor
    · exact List.eq_of_perm_of_sorted
        ((List.perm_insertionSort _ _).trans hpermall)
        (List.sorted_insertionSort _ _)
        (hsortS.sublist (List.drop_sublist _ _))
    · rw [hpermall.length_eq, List.length_drop]
      omega
  · rw [rotateAfterCopy, if_neg hgt]
    constructor
    · have hk : (List.insertionSort strLe (dir1.filter isBakFile)).length -
          MAX_BACKUPS = 0 := by omega
      rw [hk, List.drop_zero]
    · rw [← hperm.length_eq]
      omega

theorem backupRotate_spec (ts : Str) (dir : List Str)
    (hnd : dir.Nodup) (hdb : dbFileName ∈ dir) (hfresh : backupName ts ∉ dir) :
    List.insertionSort strLe ((backupRotate ts dir).filter isBakFile) =
      (List.insertionSort strLe ((dir ++ [backupName ts]).filter isBakFile)).drop
        ((List.insertionSort strLe
          ((dir ++ [backupName ts]).filter isBakFile)).length - MAX_BACKUPS) ∧
    ((backupRotate ts dir).filter isBakFile).length ≤ MAX_BACKUPS := by
  rw [backupRotate, if_pos hdb, if_neg hfresh]
  exact rotateAfterCopy_spec _ (by
    rw [List.nodup_append]
    exact ⟨hnd, List.nodup_singleton _, by
      intro a ha hb
      simp at hb
      subst hb
      exact hfresh ha⟩)

theorem backupName_lt {a b : Str} (h : strLtB a b = true)
    (hlen : a.length = b.length) :
    strLtB (backupName a) (backupName b) = true := by
  rw [backupName, backupName]
  simp only [List.append_assoc]
  rw [strLtB_append_left, strLtB_append_left]
  exact strLtB_append_of_eqlen h hlen bakSuffix bakSuffix

theorem filter_isBak_of_nobak {l : List Str} (h : ∀ f ∈ l, isBakFile f = false) :
    l.filter isBakFile = [] := by
  rw [List.filter_eq_nil_iff]
  intro a ha
  simp [h a ha]

theorem filter_isBak_names (kept : List Str) :
    (kept.map backupName).filter isBakFile = kept.map backupName := by
  rw [List.filter_eq_self]
  intro a ha
  rcases List.mem_map.mp ha with ⟨ts, -, rfl⟩
  exact isBakFile_backupName ts

/-- One load step from a canonical state: the directory is the original
(backup-free) listing plus the backups of `kept`, the timestamps of `kept`
are strictly increasing and all older than the fresh timestamp `t`. -/
theorem backupRotate_step (dir0 : List Str)
    (hdb : dbFileName ∈ dir0) (hnobak : ∀ f ∈ dir0, isBakFile f = false)
    (kept : List Str) (t : Str) (n : Nat)
    (hsorted : kept.Pairwise (fun a b => strLtB a b = true))
    (hlt : ∀ a ∈ kept, strLtB a t = true)
    (heqlen : ∀ a ∈ kept, a.length = n) (htlen : t.length = n)
    (hk5 : kept.length ≤ MAX_BACKUPS) :
    backupRotate t (dir0 ++ kept.map backupName) =
      dir0 ++ ((kept ++ [t]).drop ((kept ++ [t]).length - MAX_BACKUPS)).map
        backupName := by
  have hfresh : backupName t ∉ dir0 ++ kept.map backupName := by
    intro hmem
    rcases List.mem_append.mp hmem with hm | hm
    · have := hnobak _ hm
      rw [isBakFile_backupName] at this
      simp at this
    · rcases List.mem_map.mp hm with ⟨a, ha, he⟩
      have hne := strLtB_ne (backupName_lt (hlt a ha) ((heqlen a ha).trans htlen.symm))
      exact hne he
  have hdb1 : dbFileName ∈ dir0 ++ kept.map backupName := List.mem_append_left _ hdb
  rw [backupRotate, if_pos hdb1, if_neg hfresh]
  have hL : ((dir0 ++ kept.map backupName) ++ [backupName t]).filter isBakFile =
      kept.map backupName ++ [backupName t] := by
    rw [List.filter_append, List.filter_append, filter_isBak_of_nobak hnobak,
      filter_isBak_names, List.nil_append]
    congr 1
    rw [List.filter_eq_self]
    intro a ha
    simp at ha
    subst ha
    exact isBakFile_backupName t
  have hsortedNames : List.Sorted strLe (kept.map backupName ++ [backupName t]) := by
    rw [List.Sorted, List.pairwise_append]
    refine ⟨?_, List.pairwise_singleton _ _, ?_⟩
    · rw [List.pairwise_map]
      refine List.Pairwise.imp_of_mem ?_ hsorted
      intro a b ha hb hab
      exact strLtB_le (backupName_lt hab ((heqlen a ha).trans (heqlen b hb).symm))
    · intro x hx y hy
      simp at hy
      subst hy
      rcases List.mem_map.mp hx with ⟨a, ha, rfl⟩
      exact strLtB_le (backupName_lt (hlt a ha) ((heqlen a ha).trans htlen.symm))
  have hS : List.insertionSort strLe
      (((dir0 ++ kept.map backupName) ++ [backupName t]).filter isBakFile) =
      kept.map backupName ++ [backupName t] := by
    rw [hL]
    exact hsortedNames.insertionSort_eq
  rw [rotateAfterCopy, hS]
  have hlen1 : (kept.map backupName ++ [backupName t]).length = kept.length + 1 := by
    simp
  by_cases h5 : kept.length < MAX_BACKUPS
  · rw [if_neg (by rw [hlen1]; omega)]
    have hdrop : (kept ++ [t]).drop ((kept ++ [t]).length - MAX_BACKUPS) =
        kept ++ [t] := by
      have : (kept ++ [t]).length - MAX_BACKUPS = 0 := by simp; omega
      rw [this, List.drop_zero]
    rw [hdrop, List.map_append, List.append_assoc]
    simp
  · have hk : kept.length = MAX_BACKUPS := by omega
    rw [if_pos (by rw [hlen1]; omega)]
    have htake : (kept.map backupName ++ [backupName t]).take
        ((kept.map backupName ++ [backupName t]).length - MAX_BACKUPS) =
        (kept.map backupName).take 1 := by
      rw [hlen1, hk]
      cases kept with
      | nil => simp [MAX_BACKUPS] at hk
      | cons k0 krest => rfl
    cases kept with
    | nil => simp [MAX_BACKUPS] at hk
    | cons k0 krest =>
      rw [htake]
      have htake1 : ((k0 :: krest).map backupName).take 1 = [backupName k0] := rfl
      rw [htake1]
      have hfilter0 : dir0.filter
          (fun f => decide (f ∉ [backupName k0])) = dir0 := by
        rw [List.filter_eq_self]
        intro a ha
        simp
        intro he
        have := hnobak a ha
        rw [he, isBakFile_backupName] at this
        simp at this
      have hne0 : ∀ a ∈ krest, backupName a ≠ backupName k0 := by
        intro a ha he
        have hlt0 : strLtB k0 a = true := by
          rcases List.pairwise_cons.mp hsorted with ⟨hfirst, -⟩
          exact hfirst a ha
        have := strLtB_ne (backupName_lt hlt0
          ((heqlen k0 (List.mem_cons_self _ _)).trans
            (heqlen a (List.mem_cons_of_mem _ ha)).symm))
        exact this he.symm
      rw [List.map_cons, List.append_assoc, List.cons_append, List.filter_append,
        hfilter0]
      have hrest : ((backupName k0 :: (krest.map backupName ++ [backupName t])).filter
          (fun f => decide (f ∉ [backupName k0]))) =
          krest.map backupName ++ [backupName t] := by
        rw [List.filter_cons]
        rw [if_neg (by simp)]
        rw [List.filter_eq_self]
        intro a ha
        rcases List.mem_append.mp ha with hm | hm
        · rcases List.mem_map.mp hm with ⟨x, hx, rfl⟩
          simp
          exact hne0 x hx
        · simp at hm
          subst hm
          simp
          intro he
          have hlt0 : strLtB k0 t = true := hlt k0 (List.mem_cons_self _ _)
          exact strLtB_ne (backupName_lt hlt0
            ((heqlen k0 (List.mem_cons_self _ _)).trans htlen.symm)) he.symm
      rw [hrest]
      have hdrop : ((k0 :: krest) ++ [t]).drop (((k0 :: krest) ++ [t]).length -
          MAX_BACKUPS) = krest ++ [t] := by
        have h1 : ((k0 :: krest) ++ [t]).length - MAX_BACKUPS = 1 := by
          simp at hk ⊢
          omega
        rw [h1, List.cons_append, List.drop_one, List.tail_cons]
      rw [hdrop, List.map_append]
      rfl

theorem runLoads_aux (dir0 : List Str) (hdb : dbFileName ∈ dir0)
    (hnobak : ∀ f ∈ dir0, isBakFile f = false) (n : Nat) :
    ∀ (tss kept : List Str),
      (kept ++ tss).Pairwise (fun a b => strLtB a b = true) →
      (∀ a ∈ kept ++ tss, a.length = n) →
      kept.length ≤ MAX_BACKUPS →
      runLoads (dir0 ++ kept.map backupName) tss =
        dir0 ++ ((kept ++ tss).drop ((kept ++ tss).length - MAX_BACKUPS)).map
          backupName := by
  intro tss
  induction tss with
  | nil =>
    intro kept hp hlen hk5
    rw [runLoads, List.foldl_nil, List.append_nil]
    have h0 : kept.length - MAX_BACKUPS = 0 := by omega
    rw [h0, List.drop_zero]
  | cons t rest ih =>
    intro kept hp hlen hk5
    have hz : kept ++ [t] ++ rest = kept ++ t :: rest := by
      rw [List.append_assoc]
      rfl
    have hcross := (List.pairwise_append.mp hp).2.2
    have hstep := backupRotate_step dir0 hdb hnobak kept t n
      (hp.sublist (List.sublist_append_left kept (t :: rest)))
      (fun a ha => hcross a ha t (List.mem_cons_self _ _))
      (fun a ha => hlen a (List.mem_append_left _ ha))
      (hlen t (List.mem_append_right _ (List.mem_cons_self _ _))) hk5
    have hkey : (kept ++ [t]).drop ((kept ++ [t]).length - MAX_BACKUPS) ++ rest =
        (kept ++ t :: rest).drop ((kept ++ [t]).length - MAX_BACKUPS) := by
      rw [← hz]
      exact (List.drop_append_of_le_length (Nat.sub_le _ _)).symm
    have hsub : ((kept ++ [t]).drop ((kept ++ [t]).length - MAX_BACKUPS) ++ rest).Sublist
        (kept ++ t :: rest) := by
      rw [hkey]
      exact List.drop_sublist _ _
    have hrec := ih ((kept ++ [t]).drop ((kept ++ [t]).length - MAX_BACKUPS))
      (hp.sublist hsub)
      (fun a ha => hlen a (hsub.subset ha))
      (by
        rw [List.length_drop]
        simp
        omega)
    rw [runLoads, List.foldl_cons]
    show List.foldl (fun d ts => backupRotate ts d)
      (backupRotate t (dir0 ++ kept.map backupName)) rest = _
    rw [hstep]
    rw [runLoads] at hrec
    rw [hrec, hkey, List.drop_drop]
    have harith : (kept ++ [t]).length - MAX_BACKUPS +
        ((kept ++ t :: rest).length - ((kept ++ [t]).length - MAX_BACKUPS) -
          MAX_BACKUPS) = (kept ++ t :: rest).length - MAX_BACKUPS := by
      simp
      omega
    rw [List.length_drop, harith]

/-- C9: (1) a single backup rotation (document present, fresh timestamp)
keeps at most `MAX_BACKUPS` backup files, and the surviving backups are
exactly the lexicographically largest ones — the deleted files are the
lexicographically smallest excess; (2) after 7 successive loads of an
existing document (fresh, strictly increasing, equal-length timestamps,
starting with no backups), exactly 5 backup files remain and they are the
backups of the 5 most recent timestamps. -/
theorem C9_backup_retention :
    (∀ (ts : Str) (dir : List Str),
      dir.Nodup → dbFileName ∈ dir → backupName ts ∉ dir →
      List.insertionSort strLe ((backupRotate ts dir).filter isBakFile) =
        (List.insertionSort strLe ((dir ++ [backupName ts]).filter isBakFile)).drop
          ((List.insertionSort strLe
            ((dir ++ [backupName ts]).filter isBakFile)).length - MAX_BACKUPS) ∧
      ((backupRotate ts dir).filter isBakFile).length ≤ MAX_BACKUPS) ∧
    (∀ (dir0 tss : List Str) (n : Nat),
      dbFileName ∈ dir0 → (∀ f ∈ dir0, isBakFile f = false) →
      tss.Pairwise (fun a b => strLtB a b = true) →
      (∀ a ∈ tss, a.length = n) → tss.length = 7 →
      (runLoads dir0 tss).filter isBakFile = (tss.drop 2).map backupName ∧
      ((runLoads dir0 tss).filter isBakFile).length = 5) := by
  constructor
  · intro ts dir hnd hdbm hfresh
    exact backupRotate_spec ts dir hnd hdbm hfresh
  · intro dir0 tss n hdbm hnobak hpair hlen h7
    have haux := runLoads_aux dir0 hdbm hnobak n tss [] (by simpa using hpair)
      (by simpa using hlen) (by simp [MAX_BACKUPS])
    rw [List.nil_append] at haux
    have hdir0 : dir0 ++ ([] : List Str).map backupName = dir0 := by simp
    rw [hdir0] at haux
    have h2 : tss.length - MAX_BACKUPS = 2 := by rw [h7]; rfl
    rw [h2] at haux
    rw [haux, List.filter_append, filter_isBak_of_nobak hnobak, List.nil_append,
      filter_isBak_names]
    refine ⟨rfl, ?_⟩
    rw [List.length_map, List.length_drop, h7]

/-- A directory holding only the database document. -/
def wDir0 : List Str := [dbFileName]

/-- A concrete timestamp. -/
def wTs1 : Str := "20250101000001".toList

/-- Seven strictly increasing second-resolution timestamps. -/
def wTss : List Str :=
  ["20250101000001".toList, "20250101000002".toList, "20250101000003".toList,
   "20250101000004".toList, "20250101000005".toList, "20250101000006".toList,
   "20250101000007".toList]

theorem C9_backup_retention_witness :
    (List.insertionSort strLe ((backupRotate wTs1 wDir0).filter isBakFile) =
      (List.insertionSort strLe ((wDir0 ++ [backupName wTs1]).filter isBakFile)).drop
        ((List.insertionSort strLe
          ((wDir0 ++ [backupName wTs1]).filter isBakFile)).length - MAX_BACKUPS) ∧
      ((backupRotate wTs1 wDir0).filter isBakFile).length ≤ MAX_BACKUPS) ∧
    ((runLoads wDir0 wTss).filter isBakFile = (wTss.drop 2).map backupName ∧
      ((runLoads wDir0 wTss).filter isBakFile).length = 5) :=
  ⟨C9_backup_retention.1 wTs1 wDir0 (by decide) (by decide) (by decide),
   C9_backup_retention.2 wDir0 wTss 14 (by decide) (by decide) (by decide)
     (by decide) (by decide)⟩

end KmattInvoice
